import Mathlib

/-!
Shallow embedding of the GamerFeed feed-ingestion pipeline
(src/services/newsService.ts and src/App.tsx).

Modeling conventions:
* JavaScript strings are modeled as `List Char`.
* Null or undefined string values (results of `getAttribute`, missing object
  properties) are modeled as `Option (List Char)`; JavaScript truthiness of a
  string is non-emptiness.
* ISO-8601 publication-date strings are modeled by their epoch-millisecond
  value wherever the code only ever uses `new Date(s).getTime()`. Where the
  code converts a feed date string (`new Date(item.pubDate).toISOString()`),
  the host Date parser is an explicit partial parameter
  `dateMs : Str → Option Int`: `none` models an Invalid Date, on which
  `toISOString()` throws a RangeError that escapes the article loop.
* The host DOM parser is modeled by explicit tokenizers for exactly the
  fragments the code queries (img elements with their attributes, text
  content with entity decoding, script/style and read-more removal).
* Case conversion is the ASCII mapping of `Char.toLower`/`Char.toUpper`; all
  string constants in the code are ASCII.
-/

namespace GamerFeed

abbrev Str := List Char

def quoteC : Char := Char.ofNat 34

def aposC : Char := Char.ofNat 39

/-- JavaScript string truthiness for a possibly-null string value. -/
def strTruthy : Option Str → Bool
  | none => false
  | some s => !s.isEmpty

/-- JavaScript `a || b` on strings. -/
def jsOr (a b : Str) : Str := if a.isEmpty then b else a

/-- JavaScript `a || b` where `a` may be null and `b` is a string. -/
def jsOrOpt (a : Option Str) (b : Str) : Str :=
  match a with
  | none => b
  | some s => if s.isEmpty then b else s

/-- JavaScript `a || b` on possibly-null strings, keeping the null case. -/
def jsOrAttr (a b : Option Str) : Option Str :=
  match a with
  | none => b
  | some s => if s.isEmpty then b else some s

/-- Tests whether `needle` starts `hay`. -/
def isPref : Str → Str → Bool
  | [], _ => true
  | _ :: _, [] => false
  | a :: n, b :: h => a == b && isPref n h

/-- JavaScript `hay.includes(needle)`. -/
def containsSub : Str → Str → Bool
  | hay, needle =>
    match hay with
    | [] => needle.isEmpty
    | c :: t => isPref needle (c :: t) || containsSub t needle

/-- Remaining characters after the first occurrence of `needle` in `hay`. -/
def afterSub : Str → Str → Option Str
  | hay, needle =>
    match hay with
    | [] => if needle.isEmpty then some [] else none
    | c :: t =>
      if isPref needle (c :: t) then some ((c :: t).drop needle.length)
      else afterSub t needle

def toLowerL (s : Str) : Str := s.map Char.toLower

/-- Case-insensitive version of `isPref`. -/
def ciIsPref (needle hay : Str) : Bool := isPref (toLowerL needle) (toLowerL hay)

/-- Characters before the first case-insensitive occurrence of `needle`. -/
def takeUntilCI (needle : Str) : Str → Str
  | [] => []
  | c :: rest => if ciIsPref needle (c :: rest) then [] else c :: takeUntilCI needle rest

/-- Remaining characters after the first case-insensitive occurrence of `needle`. -/
def skipPastCI (needle : Str) : Str → Str
  | [] => []
  | c :: rest =>
    if ciIsPref needle (c :: rest) then (c :: rest).drop needle.length
    else skipPastCI needle rest

/-- Characters treated as whitespace by JavaScript `trim` (ASCII subset plus
the no-break space). -/
def isWsChar (c : Char) : Bool :=
  c == ' ' || c == '\t' || c == '\n' || c == '\r' || c == '\x0b' || c == '\x0c' || c == Char.ofNat 160

/-- JavaScript `String.prototype.trim`. -/
def trimJs (s : Str) : Str :=
  ((s.dropWhile isWsChar).reverse.dropWhile isWsChar).reverse

def isDigitC (c : Char) : Bool := decide ('0' ≤ c) && decide (c ≤ '9')

/-- JavaScript `parseInt(s, 10)`; `none` models `NaN`. -/
def jsParseInt (s : Str) : Option Int :=
  let t := s.dropWhile isWsChar
  let signed : Int × Str :=
    match t with
    | '-' :: r => (-1, r)
    | '+' :: r => (1, r)
    | _ => (1, t)
  let digits := signed.2.takeWhile isDigitC
  if digits.isEmpty then none
  else some (signed.1 * Int.ofNat (digits.foldl (fun acc c => acc * 10 + (c.toNat - '0'.toNat)) 0))

/-- Index of the last occurrence of character `c`, as `lastIndexOf` (with
`none` modeling the -1 convention). -/
def lastIdxOf (l : Str) (c : Char) : Option Nat :=
  match l with
  | [] => none
  | x :: t =>
    match lastIdxOf t c with
    | some j => some (j + 1)
    | none => if x == c then some 0 else none

def lastSpaceIdx (l : Str) : Option Nat := lastIdxOf l ' '

/-! Image scan over embedded HTML (newsService.ts lines 199-230). -/

/-- Attributes of an `<img>` element that the image scan reads
(`getAttribute` results; `none` models a missing attribute). -/
structure ImgTag where
  src : Option Str
  width : Option Str
  height : Option Str
  dataSrc : Option Str
  dataLazySrc : Option Str
deriving DecidableEq, Repr

/-- `parseInt(img.getAttribute(attr) || '0', 10)` from the image scan. -/
def imgDim (attr : Option Str) : Option Int :=
  jsParseInt (jsOrOpt attr "0".toList)

/-- JavaScript `x <= 1` where `none` models `NaN` (every comparison with `NaN`
is false). -/
def jsLEOne : Option Int → Bool
  | none => false
  | some v => decide (v ≤ 1)

/-- Predicate of the embedded-HTML image scan (the `images.find` callback,
newsService.ts lines 206-220): an `<img>` is kept only with a truthy `src`
not on the tracking domain, and both parsed dimensions above 1 (a missing
dimension attribute parses as 0 via the `|| '0'` default and is rejected). -/
def imgAccepted (img : ImgTag) : Bool :=
  match img.src with
  | none => false
  | some s =>
    if s.isEmpty then false
    else if containsSub s "cpx.golem.de".toList then false
    else if jsLEOne (imgDim img.width) || jsLEOne (imgDim img.height) then false
    else true

/-- Character classes ending an attribute name inside a tag. -/
def attrNameEnd (c : Char) : Bool := isWsChar c || c == '=' || c == '>' || c == '/'

/-- Reads one attribute value after `=` (double-quoted, single-quoted or bare). -/
def readAttrValue (s : Str) : Str × Str :=
  match s with
  | c :: r =>
    if c == quoteC then (r.takeWhile (fun x => !(x == quoteC)), (r.dropWhile (fun x => !(x == quoteC))).drop 1)
    else if c == aposC then (r.takeWhile (fun x => !(x == aposC)), (r.dropWhile (fun x => !(x == aposC))).drop 1)
    else ((c :: r).takeWhile (fun x => !(isWsChar x || x == '>')), (c :: r).dropWhile (fun x => !(isWsChar x || x == '>')))
  | [] => ([], [])

/-- Collects the attributes of a tag, consuming characters up to and past the
closing `>`; returns the attribute list and the remaining characters. -/
def readAttrs : Nat → Str → List (Str × Str) → List (Str × Str) × Str
  | 0, s, acc => (acc.reverse, s)
  | fuel + 1, s, acc =>
    match s.dropWhile isWsChar with
    | [] => (acc.reverse, [])
    | c :: r =>
      if c == '>' then (acc.reverse, r)
      else if c == '/' then readAttrs fuel r acc
      else
        let name := (c :: r).takeWhile (fun x => !attrNameEnd x)
        let r1 := ((c :: r).dropWhile (fun x => !attrNameEnd x)).dropWhile isWsChar
        match r1 with
        | '=' :: r2 =>
          let v := readAttrValue (r2.dropWhile isWsChar)
          readAttrs fuel v.2 ((toLowerL name, v.1) :: acc)
        | _ => readAttrs fuel r1 ((toLowerL name, []) :: acc)

/-- First value of the attribute with the given (lowercase) name, as
`getAttribute`. -/
def attrOf (attrs : List (Str × Str)) (name : Str) : Option Str :=
  (attrs.find? (fun p => p.1 == name)).map Prod.snd

/-- Tests that a tag name ends here (whitespace, `/`, `>` or end of input). -/
def tagBoundary : Str → Bool
  | [] => true
  | c :: _ => isWsChar c || c == '/' || c == '>'

def mkImgTag (attrs : List (Str × Str)) : ImgTag :=
  { src := attrOf attrs "src".toList
    width := attrOf attrs "width".toList
    height := attrOf attrs "height".toList
    dataSrc := attrOf attrs "data-src".toList
    dataLazySrc := attrOf attrs "data-lazy-src".toList }

/-- Scans an HTML fragment for `<img>` elements, modeling
`DOMParser().parseFromString(content, 'text/html')` followed by
`querySelectorAll('img')` on well-formed fragments. -/
def parseImgTagsGo : Nat → Str → List ImgTag
  | 0, _ => []
  | _, [] => []
  | fuel + 1, c :: rest =>
    if c == '<' && ciIsPref "img".toList (rest.take 3) && tagBoundary (rest.drop 3) then
      let res := readAttrs (fuel + 1) (rest.drop 3) []
      mkImgTag res.1 :: parseImgTagsGo fuel res.2
    else parseImgTagsGo fuel rest

def parseImgTags (s : Str) : List ImgTag := parseImgTagsGo (s.length + 1) s

/-! Image resolver (newsService.ts lines 186-262). -/

inductive Lang
  | de
  | en
deriving DecidableEq, Repr

/-- Intermediate item representation built by `parseRssXml` and consumed by
`extractInitialData`; optional fields model null or absent properties. -/
structure Item where
  title : Str
  link : Str
  pubDate : Str
  guid : Str
  description : Str
  content : Str
  mediaThumbnailUrl : Option Str
  enclosureLink : Option Str
  enclosureType : Option Str
  thumbnail : Option Str
deriving DecidableEq, Repr

/-- Candidate selection of the Image Resolver (newsService.ts lines 187-230):
enclosure with an image MIME type, then string thumbnail, then media
thumbnail URL, then the embedded-HTML image scan with the lazy-load
attribute preference. -/
def extractCandidate (item : Item) : Option Str :=
  if strTruthy item.enclosureLink && strTruthy item.enclosureType &&
      isPref "image".toList (item.enclosureType.getD []) then
    item.enclosureLink
  else if strTruthy item.thumbnail then item.thumbnail
  else if strTruthy item.mediaThumbnailUrl then item.mediaThumbnailUrl
  else
    let content := jsOr item.content item.description
    if content.isEmpty then none
    else
      match (parseImgTags content).find? imgAccepted with
      | none => none
      | some best =>
        match jsOrAttr best.dataSrc (jsOrAttr best.dataLazySrc best.src) with
        | none => none
        | some s => if s.isEmpty then none else some s

def sourcesNeedingScraping : List Str :=
  ["play3".toList, "xboxdynasty".toList, "playfront".toList, "playstation info".toList,
   "pixelcritics".toList, "gameswelt".toList, "jpgames".toList]

/-- Characters `encodeURIComponent` leaves unescaped. -/
def encSafe (c : Char) : Bool :=
  (decide ('A' ≤ c) && decide (c ≤ 'Z')) || (decide ('a' ≤ c) && decide (c ≤ 'z')) ||
  (decide ('0' ≤ c) && decide (c ≤ '9')) ||
  c == '-' || c == '_' || c == '.' || c == '!' || c == '~' || c == '*' || c == aposC ||
  c == '(' || c == ')'

def hexDigitC (n : Nat) : Char :=
  if n < 10 then Char.ofNat ('0'.toNat + n) else Char.ofNat ('A'.toNat + n - 10)

/-- UTF-8 bytes of one character. -/
def utf8BytesC (c : Char) : List Nat :=
  let n := c.toNat
  if n < 128 then [n]
  else if n < 2048 then [192 + n / 64, 128 + n % 64]
  else if n < 65536 then [224 + n / 4096, 128 + (n / 64) % 64, 128 + n % 64]
  else [240 + n / 262144, 128 + (n / 4096) % 64, 128 + (n / 64) % 64, 128 + n % 64]

def pctByte (b : Nat) : Str := ['%', hexDigitC (b / 16), hexDigitC (b % 16)]

/-- JavaScript `encodeURIComponent`. -/
def encodeURIComponentL (s : Str) : Str :=
  (s.map (fun c => if encSafe c then [c] else ((utf8BytesC c).map pctByte).flatten)).flatten

/-- Placeholder URL of the Image Resolver (newsService.ts line 260). -/
def placeholderUrl (sourceName : Str) : Str :=
  "https://placehold.co/600x400/374151/d1d5db?text=".toList ++
    encodeURIComponentL (sourceName.take 30)

/-- Hostname of an absolute URL, as `new URL(u).hostname` (simplified: the
characters between the scheme separator and the next delimiter, lowercased;
userinfo syntax is not modeled). -/
def hostOf (u : Str) : Str :=
  match afterSub u "://".toList with
  | none => []
  | some r => toLowerL (r.takeWhile (fun c => !(c == '/' || c == ':' || c == '?' || c == '#')))

/-- Splits `hay` at the first occurrence of `needle`: characters before it and
characters after it. -/
def splitAtSub : Str → Str → Option (Str × Str)
  | hay, needle =>
    match hay with
    | [] => if needle.isEmpty then some ([], []) else none
    | c :: t =>
      if isPref needle (c :: t) then some ([], (c :: t).drop needle.length)
      else
        match splitAtSub t needle with
        | none => none
        | some p => some (c :: p.1, p.2)

/-- Scheme and authority of an absolute URL (up to the first slash after the
scheme separator). -/
def originOf (base : Str) : Str :=
  match splitAtSub base "://".toList with
  | none => base
  | some p => p.1 ++ "://".toList ++ p.2.takeWhile (fun c => !(c == '/'))

/-- Base directory of an absolute URL: everything up to and including the last
slash of its path, or the origin plus a slash when the path has none. -/
def dirOf (base : Str) : Str :=
  let o := originOf base
  let path := base.drop o.length
  match lastIdxOf path '/' with
  | none => o ++ ['/']
  | some i => o ++ path.take (i + 1)

/-- Simplified model of `new URL(u, base).href`: absolute URLs pass through
unchanged, root-relative and path-relative references resolve against the
base, and `none` models the constructor throwing when no scheme is in reach
(normalization of dot segments is not modeled). -/
def resolveHref (u base : Str) : Option Str :=
  if containsSub u "://".toList then some u
  else if containsSub base "://".toList then
    match u with
    | '/' :: _ => some (originOf base ++ u)
    | _ => some (dirOf base ++ u)
  else none

/-- One-position match of the regex `\/uploads\/[^\/]+\//`: at the head of
`s`, the literal `/uploads/`, a nonempty run of non-slash characters, then a
slash; returns the matched length. -/
def uploadsMatchLen (s : Str) : Option Nat :=
  if isPref "/uploads/".toList s then
    if ((s.drop 9).takeWhile (fun c => !(c == '/'))).isEmpty then none
    else
      match (s.drop 9).drop ((s.drop 9).takeWhile (fun c => !(c == '/'))).length with
      | '/' :: _ => some (9 + ((s.drop 9).takeWhile (fun c => !(c == '/'))).length + 1)
      | _ => none
  else none

/-- `url.replace(/\/uploads\/[^\/]+\//, '/uploads/original/')`: first match
only (newsService.ts line 243). -/
def replaceUploadsOriginal : Str → Str
  | [] => []
  | c :: rest =>
    match uploadsMatchLen (c :: rest) with
    | some n => "/uploads/original/".toList ++ (c :: rest).drop n
    | none => c :: replaceUploadsOriginal rest

/-- One-position match of the regex `\/(\d{2,4})\//`. -/
def numSegMatchLen (s : Str) : Option Nat :=
  match s with
  | '/' :: r =>
    let ds := r.takeWhile isDigitC
    if decide (2 ≤ ds.length) && decide (ds.length ≤ 4) then
      match r.drop ds.length with
      | '/' :: _ => some (1 + ds.length + 1)
      | _ => none
    else none
  | _ => none

/-- `url.replace(/\/(\d{2,4})\//, '/800/')`: first match only
(newsService.ts line 249). -/
def replaceNumSeg800 : Str → Str
  | [] => []
  | c :: rest =>
    match numSegMatchLen (c :: rest) with
    | some n => "/800/".toList ++ (c :: rest).drop n
    | none => c :: replaceNumSeg800 rest

def extOk (rest : Str) : Bool :=
  toLowerL rest == ".jpg".toList || toLowerL rest == ".jpeg".toList ||
  toLowerL rest == ".png".toList || toLowerL rest == ".gif".toList ||
  toLowerL rest == ".webp".toList

/-- One-position match of the case-insensitive regex removing a trailing
size suffix `-WIDTHxHEIGHT` before an image file extension at the end of the
URL; the extension lookahead is checked but not consumed. -/
def sizeSuffixMatchLen (s : Str) : Option Nat :=
  match s with
  | '-' :: r =>
    let a := r.takeWhile isDigitC
    if a.isEmpty then none
    else
      match r.drop a.length with
      | c2 :: r2 =>
        if c2 == 'x' || c2 == 'X' then
          let b := r2.takeWhile isDigitC
          if b.isEmpty then none
          else if extOk (r2.drop b.length) then some (1 + a.length + 1 + b.length) else none
        else none
      | [] => none
  | _ => none

/-- First-match-only removal of the `-WIDTHxHEIGHT` size suffix
(newsService.ts line 252). -/
def stripSizeSuffix : Str → Str
  | [] => []
  | c :: rest =>
    match sizeSuffixMatchLen (c :: rest) with
    | some n => (c :: rest).drop n
    | none => c :: stripSizeSuffix rest

/-- Per-host image URL rewrites (newsService.ts lines 238-253). -/
def applyHostRewrites (processedUrl sourceName : Str) : Str :=
  let host := hostOf processedUrl
  let p1 :=
    if containsSub host "gamespot.com".toList then replaceUploadsOriginal processedUrl
    else if containsSub host "pcgames.de".toList && !containsSub host "pcgameshardware.de".toList then
      processedUrl
    else if containsSub host "pcgameshardware.de".toList then processedUrl
    else if containsSub host "cgames.de".toList || containsSub sourceName "GameStar".toList ||
        containsSub sourceName "GamePro".toList then
      replaceNumSeg800 processedUrl
    else processedUrl
  if containsSub sourceName "GamesWirtschaft".toList then stripSizeSuffix p1 else p1

/-- The Image Resolver `extractInitialData` (newsService.ts lines 186-262):
returns the resolved image URL and the needs-scraping flag. -/
def extractInitialData (item : Item) (sourceName : Str) : Str × Bool :=
  let candidate := extractCandidate item
  let needsScraping :=
    candidate.isNone && sourcesNeedingScraping.any (fun s => containsSub (toLowerL sourceName) s)
  match candidate with
  | some imageUrl =>
    match resolveHref imageUrl item.link with
    | some processedUrl => (applyHostRewrites processedUrl sourceName, false)
    | none => (placeholderUrl sourceName, needsScraping)
  | none => (placeholderUrl sourceName, needsScraping)

/-! Source Name Normalizer (newsService.ts lines 52-120). -/

/-- `URL_TO_NAME_MAP`, in object-literal insertion order (the order `for..in`
visits its string keys). -/
def urlNameList : List (Str × Str) :=
  [("play3.de".toList, "Play3".toList),
   ("gamestar.de".toList, "GameStar".toList),
   ("buffed.de".toList, "Buffed".toList),
   ("xboxdynasty.de".toList, "Xbox Dynasty".toList),
   ("playstationinfo.de".toList, "PlayStation Info".toList),
   ("videogameszone.de".toList, "Video Games Zone".toList),
   ("computerbild.de".toList, "Computer Bild".toList),
   ("gameswirtschaft.de".toList, "GamesWirtschaft".toList),
   ("gamepro.de".toList, "GamePro".toList),
   ("gamezone.de".toList, "GameZone".toList),
   ("playfront.de".toList, "PlayFront".toList),
   ("gamersglobal.de".toList, "GamersGlobal".toList),
   ("mein-mmo.de".toList, "Mein-MMO".toList),
   ("eurogamer.de".toList, "Eurogamer".toList),
   ("pcgames.de".toList, "PC Games".toList),
   ("pcgameshardware.de".toList, "PC Games Hardware".toList),
   ("ign.com".toList, "IGN".toList),
   ("4p.de".toList, "4P".toList),
   ("pixelcritics.com".toList, "PixelCritics".toList),
   ("gameswelt.ch".toList, "GamesWelt".toList),
   ("jpgames.de".toList, "JPGames".toList),
   ("gamesradar.com".toList, "GamesRadar+".toList),
   ("gamespot.com".toList, "GameSpot".toList),
   ("gameinformer.com".toList, "Game Informer".toList),
   ("rockpapershotgun.com".toList, "Rock Paper Shotgun".toList),
   ("polygon.com".toList, "Polygon".toList),
   ("kotaku.com".toList, "Kotaku".toList),
   ("pcgamer.com".toList, "PC Gamer".toList),
   ("destructoid.com".toList, "Destructoid".toList),
   ("gematsu.com".toList, "Gematsu".toList),
   ("golem.de".toList, "Golem".toList),
   ("giga.de".toList, "GIGA Games".toList),
   ("heise.de".toList, "Heise Online".toList)]

/-- The `for (const key in URL_TO_NAME_MAP)` loop: first key contained in the
feed URL wins. -/
def lookupUrlName (feedUrl : Str) : List (Str × Str) → Option Str
  | [] => none
  | (k, v) :: rest => if containsSub feedUrl k then some v else lookupUrlName feedUrl rest

/-- The junk-phrase alternation, in source order (regex alternation tries the
alternatives left to right at each position). -/
def junkPhrases : List Str :=
  ["latest articles feed".toList, "mashup".toList, "all content".toList, "alles".toList,
   "news".toList, "feed".toList, "rss".toList, "uk".toList]

/-- Length of the junk phrase matching (case-insensitively) at this position,
if any. -/
def firstJunkLen (s : Str) : Option Nat :=
  (junkPhrases.find? (fun p => ciIsPref p s)).map List.length

/-- Global case-insensitive removal of the junk phrases, scanning left to
right (the `replace(junkRegex, '')` step). -/
def stripJunkGo : Nat → Str → Str
  | 0, s => s
  | _, [] => []
  | fuel + 1, c :: rest =>
    match firstJunkLen (c :: rest) with
    | some n => stripJunkGo fuel ((c :: rest).drop n)
    | none => c :: stripJunkGo fuel rest

def stripJunk (s : Str) : Str := stripJunkGo (s.length + 1) s

/-- JavaScript `s.split(sep)` for a non-empty separator. -/
def splitOnSubGo : Nat → Str → Str → Str → List Str
  | 0, _, cur, _ => [cur.reverse]
  | _ + 1, _, cur, [] => [cur.reverse]
  | fuel + 1, sep, cur, c :: t =>
    if isPref sep (c :: t) then cur.reverse :: splitOnSubGo fuel sep [] ((c :: t).drop sep.length)
    else splitOnSubGo fuel sep (c :: cur) t

def splitOnSub (sep s : Str) : List Str := splitOnSubGo (s.length + 1) sep [] s

/-- Stable insertion preserving the relative order of equal lengths. -/
def insByLen (x : Str) : List Str → List Str
  | [] => [x]
  | y :: l => if y.length < x.length then y :: insByLen x l else x :: y :: l

/-- JavaScript stable `parts.sort((a, b) => a.length - b.length)`. -/
def sortByLen : List Str → List Str
  | [] => []
  | x :: l => insByLen x (sortByLen l)

/-- The separator loop of `cleanSourceName` (lines 104-111): the first listed
separator contained in the name splits it; parts are trimmed and pruned. -/
def sepSplit (cleaned : Str) : List Str :=
  match [" - ".toList, " | ".toList, ": ".toList].find? (fun sep => containsSub cleaned sep) with
  | some sep => ((splitOnSub sep cleaned).map trimJs).filter (fun p => !p.isEmpty)
  | none => [cleaned]

/-- `parts.sort(...)[0] || cleanedName` (line 112). -/
def shortestPart (parts : List Str) (cleaned : Str) : Str :=
  match sortByLen parts with
  | [] => cleaned
  | p :: _ => if p.isEmpty then cleaned else p

/-- `word.charAt(0).toUpperCase() + word.slice(1).toLowerCase()`. -/
def capWord : Str → Str
  | [] => []
  | c :: rest => Char.toUpper c :: toLowerL rest

/-- JavaScript `words.join(' ')`. -/
def joinSpace : List Str → Str
  | [] => []
  | [w] => w
  | w :: ws => w ++ ' ' :: joinSpace ws

/-- The Source Name Normalizer `cleanSourceName` (newsService.ts lines
88-120). -/
def cleanSourceName (name feedUrl : Str) : Str :=
  if name.isEmpty then "Unknown Source".toList
  else
    match lookupUrlName feedUrl urlNameList with
    | some v => v
    | none =>
      let cleaned1 := stripJunk name
      let best := shortestPart (sepSplit cleaned1) cleaned1
      joinSpace (((splitOnSub [' '] (trimJs best)).filter (fun w => !w.isEmpty)).map capWord)

/-! Content Summarizer (newsService.ts lines 123-153). -/

/-- Decodes a leading character entity, returning the decoded character and
the remaining input (common named and numeric entities; unknown entities stay
literal, as the text pass emits the ampersand unchanged). -/
def entityAt (s : Str) : Option (Char × Str) :=
  if isPref "&lt;".toList s then some ('<', s.drop 4)
  else if isPref "&gt;".toList s then some ('>', s.drop 4)
  else if isPref "&amp;".toList s then some ('&', s.drop 5)
  else if isPref "&quot;".toList s then some (quoteC, s.drop 6)
  else if isPref "&#39;".toList s then some (aposC, s.drop 5)
  else if isPref "&apos;".toList s then some (aposC, s.drop 6)
  else if isPref "&nbsp;".toList s then some (Char.ofNat 160, s.drop 6)
  else none

/-- Text content extraction: drops tags, drops script and style elements with
their contents, decodes entities; models `doc.body.textContent` after the
script/style removal pass (newsService.ts lines 125-140). -/
def extractTextGo : Nat → Str → Str
  | 0, _ => []
  | _, [] => []
  | fuel + 1, c :: rest =>
    if c == '<' then
      if ciIsPref "script".toList (rest.take 6) && tagBoundary (rest.drop 6) then
        let r := skipPastCI "</script".toList rest
        extractTextGo fuel ((r.dropWhile (fun x => !(x == '>'))).drop 1)
      else if ciIsPref "style".toList (rest.take 5) && tagBoundary (rest.drop 5) then
        let r := skipPastCI "</style".toList rest
        extractTextGo fuel ((r.dropWhile (fun x => !(x == '>'))).drop 1)
      else extractTextGo fuel ((rest.dropWhile (fun x => !(x == '>'))).drop 1)
    else
      match entityAt (c :: rest) with
      | some d => d.1 :: extractTextGo fuel d.2
      | none => c :: extractTextGo fuel rest

/-- Tests whether some anchor element inside the fragment has link text
containing a read-more phrase (the check of newsService.ts lines 132-138). -/
def anchorsReadMoreGo : Nat → Str → Bool
  | 0, _ => false
  | _, [] => false
  | fuel + 1, c :: rest =>
    if c == '<' && ciIsPref "a".toList (rest.take 1) && tagBoundary (rest.drop 1) then
      let afterOpen := (rest.dropWhile (fun x => !(x == '>'))).drop 1
      let inner := takeUntilCI "</a".toList afterOpen
      let txt := toLowerL (extractTextGo (inner.length + 1) inner)
      if containsSub txt "continue reading".toList || containsSub txt "read more".toList then true
      else anchorsReadMoreGo fuel rest
    else anchorsReadMoreGo fuel rest

/-- Removal of paragraphs whose anchor text is read-more boilerplate
(`a.closest('p')?.remove()`), for non-nested paragraphs; anchors outside any
paragraph are left in place, as in the code. -/
def removeReadMoreParas : Nat → Str → Str
  | 0, s => s
  | _, [] => []
  | fuel + 1, c :: rest =>
    if c == '<' && ciIsPref "p".toList (rest.take 1) && tagBoundary (rest.drop 1) then
      let body := takeUntilCI "</p".toList (c :: rest)
      if anchorsReadMoreGo (body.length + 1) body then
        let r := skipPastCI "</p".toList rest
        removeReadMoreParas fuel ((r.dropWhile (fun x => !(x == '>'))).drop 1)
      else c :: removeReadMoreParas fuel rest
    else c :: removeReadMoreParas fuel rest

/-- The trimmed body text of the summarizer (the `text` variable of
`stripHtmlAndTruncate` at line 140). -/
def extractedText (html : Str) : Str :=
  trimJs (extractTextGo (html.length + 1) (removeReadMoreParas (html.length + 1) html))

/-- The Content Summarizer `stripHtmlAndTruncate` (newsService.ts lines
123-153). -/
def stripHtmlAndTruncate (html : Str) (maxLen : Nat) : Str :=
  if html.isEmpty then []
  else if extractedText html == "...".toList then []
  else if decide (maxLen < (extractedText html).length) then
    match lastSpaceIdx ((extractedText html).take maxLen) with
    | some i =>
      if 0 < i then ((extractedText html).take maxLen).take i ++ "...".toList
      else (extractedText html).take maxLen ++ "...".toList
    | none => (extractedText html).take maxLen ++ "...".toList
  else extractedText html

/-! Feed Parser item extraction (newsService.ts lines 264-340). -/

/-- Element-level view of one `<item>`/`<entry>` node, holding exactly the
query results the item loop of `parseRssXml` reads; each `none` models a
missing element or attribute (the `?.` chains). -/
structure XmlNode where
  title : Option Str
  linkText : Option Str
  atomLinks : List (Option Str × Option Str)
  published : Option Str
  pubDate : Option Str
  updated : Option Str
  guid : Option Str
  idText : Option Str
  description : Option Str
  summary : Option Str
  contentEncoded : Option Str
  content : Option Str
  mediaThumbUrl : Option Str
  enclosureUrl : Option Str
  enclosureType : Option Str
deriving DecidableEq, Repr

/-- `context.querySelector(sel)?.textContent?.trim() || ''` (also the
semantics of `getHtmlContent`). -/
def queryText (o : Option Str) : Str :=
  match o with
  | none => []
  | some s => trimJs s

/-- Link extraction per node (lines 297-303): Atom prefers the
`rel="alternate"` link element and falls back to the first link, reading its
`href` attribute; RSS takes the text of the `link` element. -/
def nodeLink (isAtom : Bool) (n : XmlNode) : Option Str :=
  if isAtom then
    match (n.atomLinks.find? (fun p => p.1 == some "alternate".toList)).orElse (fun _ => n.atomLinks.head?) with
    | none => none
    | some p => p.2
  else some (queryText n.linkText)

/-- Publication date per node (line 306): `published` for Atom, `pubDate` for
RSS, in both cases falling back to `updated`. -/
def nodePubDate (isAtom : Bool) (n : XmlNode) : Str :=
  jsOr (queryText (if isAtom then n.published else n.pubDate)) (queryText n.updated)

/-- The skip guard of the item loop (line 308): `!title || !link || !pubDate`
inverted. -/
def nodeValid (isAtom : Bool) (n : XmlNode) : Bool :=
  !(queryText n.title).isEmpty && strTruthy (nodeLink isAtom n) && !(nodePubDate isAtom n).isEmpty

/-- The item record pushed for one valid node (lines 318-332). -/
def buildItem (isAtom : Bool) (n : XmlNode) : Item :=
  let link := (nodeLink isAtom n).getD []
  let description := jsOr (queryText n.description) (queryText n.summary)
  let contentEnc := jsOr (queryText n.contentEncoded) (queryText n.content)
  { title := queryText n.title
    link := link
    pubDate := nodePubDate isAtom n
    guid := jsOr (queryText n.guid) (jsOr (queryText n.idText) link)
    description := description
    content := jsOr contentEnc description
    mediaThumbnailUrl := n.mediaThumbUrl
    enclosureLink := n.enclosureUrl
    enclosureType := n.enclosureType
    thumbnail := none }

/-- The item loop of `parseRssXml` (`itemNodes.forEach` with early-return skip
and push, lines 296-333). -/
def parseRssItems (isAtom : Bool) (nodes : List XmlNode) : List Item :=
  nodes.foldl (fun acc n => if nodeValid isAtom n then acc ++ [buildItem isAtom n] else acc) []

/-! Aggregate article model and the merge step (src/App.tsx lines 122-154). -/

/-- The canonical article record (types.ts); `publicationDate` is modeled by
its epoch-millisecond value `pubMs`. -/
structure Article where
  id : Str
  title : Str
  source : Str
  pubMs : Int
  summary : Str
  link : Str
  imageUrl : Str
  needsScraping : Bool
  language : Lang
deriving DecidableEq, Repr

instance : Inhabited Lang := ⟨Lang.de⟩

instance : Inhabited Article :=
  ⟨{ id := [], title := [], source := [], pubMs := 0, summary := [], link := [],
     imageUrl := [], needsScraping := false, language := Lang.de }⟩

/-- One `articleMap.set(a.id, a)` step under JavaScript `Map` insertion-order
semantics: an existing key keeps its position and takes the new value, a new
key is appended. -/
def dedupInsert (m : List (Str × Article)) (a : Article) : List (Str × Article) :=
  if m.any (fun p => p.1 == a.id) then
    m.map (fun p => if p.1 == a.id then (p.1, a) else p)
  else m ++ [(a.id, a)]

def dedupMapOf (l : List Article) : List (Str × Article) := l.foldl dedupInsert []

/-- `Array.from(articleMap.values())` after inserting every article
(App.tsx lines 127-129). -/
def deduplicated (l : List Article) : List Article := (dedupMapOf l).map Prod.snd

def retentionMs : Int := 7 * 24 * 60 * 60 * 1000

/-- Stable insertion for the descending publication-date sort. -/
def insDesc (a : Article) : List Article → List Article
  | [] => [a]
  | b :: l => if decide (a.pubMs < b.pubMs) then b :: insDesc a l else a :: b :: l

/-- JavaScript stable `sort((a, b) => dateB - dateA)`: descending publication
date. -/
def sortByDateDesc : List Article → List Article
  | [] => []
  | a :: l => insDesc a (sortByDateDesc l)

/-- The merge step `updateArticlesAndCache` (App.tsx lines 122-143): dedup by
id with last-write-wins, prune to the 7-day retention window, sort by
descending publication date; the result is both committed to state and
written to the cache envelope. -/
def updateArticles (now : Int) (newArticles : List Article) : List Article :=
  sortByDateDesc
    ((deduplicated newArticles).filter (fun a => decide (now - retentionMs ≤ a.pubMs)))

/-! Feed-group aggregation (newsService.ts lines 342-410). -/

/-- One settled per-feed fetch task: the parsed feed data for a feed whose
fetch and parse succeeded on some proxy, or `none` for a feed whose proxies
were all exhausted (failed response, invalid body, or parse error on every
proxy). -/
structure ParsedFeed where
  feedTitle : Str
  feedUrl : Str
  items : List Item
  language : Lang
deriving DecidableEq, Repr

/-- The re-check guard of the article loop (line 383). -/
def itemValid (it : Item) : Bool :=
  !it.title.isEmpty && !it.link.isEmpty && !it.pubDate.isEmpty

/-- One pushed article (lines 387-397). `dateMs` is the injected host Date
parser; `none` models `new Date(item.pubDate)` being an Invalid Date, on
which `toISOString()` (line 391) throws a RangeError — the build result is
then `none` and the thrown error aborts the whole aggregation. -/
def buildArticle (dateMs : Str → Option Int) (sourceName : Str) (lang : Lang) (it : Item) :
    Option Article :=
  match dateMs it.pubDate with
  | none => none
  | some ms =>
    let e := extractInitialData it sourceName
    some { id := jsOr it.guid it.link
           title := trimJs it.title
           source := sourceName
           pubMs := ms
           summary := stripHtmlAndTruncate (jsOr it.description it.content) 150
           link := it.link
           imageUrl := e.1
           needsScraping := e.2
           language := lang }

/-- One step of the inner forEach (lines 382-398): a skipped item leaves the
accumulator, a kept item is built and pushed, and a date-conversion throw
aborts the loop (`none` once thrown, `none` forever). -/
def pushItem (dateMs : Str → Option Int) (sourceName : Str) (lang : Lang)
    (acc : Option (List Article)) (it : Item) : Option (List Article) :=
  match acc with
  | none => none
  | some l =>
    if itemValid it then
      match buildArticle dateMs sourceName lang it with
      | none => none
      | some a => some (l ++ [a])
    else some l

/-- Articles contributed by one successful feed, or `none` when building one
of its kept items threw on the date conversion. -/
def feedArticles (dateMs : Str → Option Int) (f : ParsedFeed) : Option (List Article) :=
  f.items.foldl (pushItem dateMs (cleanSourceName f.feedTitle f.feedUrl) f.language) (some [])

/-- One step of the outer results loop (lines 376-400): failed feeds
contribute nothing, successful feeds append their articles, and a throw
inside any feed aborts everything. -/
def pushFeed (dateMs : Str → Option Int) (acc : Option (List Article))
    (o : Option ParsedFeed) : Option (List Article) :=
  match acc with
  | none => none
  | some l =>
    match o with
    | none => some l
    | some f =>
      match feedArticles dateMs f with
      | none => none
      | some as => some (l ++ as)

def aggregationError : Str :=
  "Could not fetch news from any source. Please check your internet connection or try again later.".toList

/-- Message of the RangeError thrown by `toISOString()` on an Invalid Date. -/
def rangeErrorMsg : Str := "Invalid time value".toList

/-- Tests whether some successful feed holds a kept item whose publication
date fails to parse — the condition under which the article loop throws. -/
def hasInvalidDate (dateMs : Str → Option Int) (outcomes : List (Option ParsedFeed)) : Bool :=
  outcomes.any (fun o =>
    match o with
    | none => false
    | some f => f.items.any (fun it => itemValid it && (dateMs it.pubDate).isNone))

/-- The aggregation of `fetchArticlesFromFeeds` over the settled per-feed
outcomes (lines 373-409): collect the articles of every successful feed — a
RangeError from an unparseable kept date escapes the loop and rejects the
whole fetch — and otherwise throw only when nothing was collected, the group
is nonempty, and every feed failed. -/
def fetchArticlesFromFeeds (dateMs : Str → Option Int) (outcomes : List (Option ParsedFeed)) :
    Except Str (List Article) :=
  match outcomes.foldl (pushFeed dateMs) (some []) with
  | none => Except.error rangeErrorMsg
  | some allArticles =>
    if allArticles.length = 0 ∧ 0 < outcomes.length then
      if (outcomes.filter (fun o => o.isNone)).length = outcomes.length then
        Except.error aggregationError
      else Except.ok allArticles
    else Except.ok allArticles

/-! Image scraper pass (src/App.tsx lines 156-190). -/

/-- The per-article state update of `runImageScraper` (lines 169-175):
`scraped` is the settled `getOgImageFromUrl` result for the article with id
`targetId` (`none` models the null return); the matching article takes the
scraped URL when truthy, keeps its image otherwise, and has its
needs-scraping flag cleared; every other article is untouched. -/
def scrapeUpdate (scraped : Option Str) (targetId : Str) (arts : List Article) : List Article :=
  arts.map (fun a =>
    if a.id == targetId then
      { a with imageUrl := jsOrOpt scraped a.imageUrl, needsScraping := false }
    else a)

/-! Verification-support definitions over the dedup map and concrete demo
values used by witnesses. -/

/-- Keys of the dedup association list, in order. -/
def keysOf (m : List (Str × Article)) : List Str := m.map Prod.fst

/-- Value stored under a key (`Map.get` view of the association list). -/
def lookupA (m : List (Str × Article)) (k : Str) : Option Article :=
  (m.find? (fun p => p.1 == k)).map Prod.snd

/-- Last article of the list carrying the given id. -/
def lastWith : List Article → Str → Option Article
  | [], _ => none
  | a :: l, k =>
    match lastWith l k with
    | some b => some b
    | none => if a.id == k then some a else none

/-- First-occurrence id sequence accumulated over a list of articles. -/
def addIds (ks : List Str) (l : List Article) : List Str :=
  l.foldl (fun ks a => if ks.contains a.id then ks else ks ++ [a.id]) ks

/-- Item whose HTML content holds only a 1x1 tracking pixel. -/
def trackPixelItem : Item :=
  { title := "T".toList
    link := "https://example.com/post".toList
    pubDate := "Mon, 01 Jan 2024 00:00:00 GMT".toList
    guid := []
    description := []
    content := "<img src=\"track.gif\" width=\"1\" height=\"1\">".toList
    mediaThumbnailUrl := none
    enclosureLink := none
    enclosureType := none
    thumbnail := none }

/-- Item whose HTML content holds an img with a src, a non-tracker domain and
no declared dimensions. -/
def noDimImgItem : Item :=
  { title := "T".toList
    link := "https://example.com/post".toList
    pubDate := "Mon, 01 Jan 2024 00:00:00 GMT".toList
    guid := []
    description := []
    content := "<img src=\"https://example.com/pic.jpg\">".toList
    mediaThumbnailUrl := none
    enclosureLink := none
    enclosureType := none
    thumbnail := none }

/-- RSS item node without a `pubDate` element but with an `updated` element. -/
def rssUpdatedNode : XmlNode :=
  { title := some "Title".toList
    linkText := some "https://example.com/a".toList
    atomLinks := []
    published := none
    pubDate := none
    updated := some "Mon, 01 Jan 2024 00:00:00 GMT".toList
    guid := none
    idText := none
    description := none
    summary := none
    contentEncoded := none
    content := none
    mediaThumbUrl := none
    enclosureUrl := none
    enclosureType := none }

/-- Fully populated RSS item node used by witnesses. -/
def demoRssNode : XmlNode :=
  { title := some "Demo title".toList
    linkText := some "https://example.com/demo".toList
    atomLinks := []
    published := none
    pubDate := some "Tue, 02 Jan 2024 10:00:00 GMT".toList
    updated := none
    guid := some "demo-guid".toList
    idText := none
    description := some "A short description.".toList
    summary := none
    contentEncoded := none
    content := none
    mediaThumbUrl := none
    enclosureUrl := none
    enclosureType := none }

def demoArticle1 : Article :=
  { id := "id-1".toList
    title := "First".toList
    source := "GameStar".toList
    pubMs := 1000
    summary := "s1".toList
    link := "https://example.com/1".toList
    imageUrl := placeholderUrl "GameStar".toList
    needsScraping := true
    language := Lang.de }

def demoArticle2 : Article :=
  { id := "id-2".toList
    title := "Second".toList
    source := "Kotaku".toList
    pubMs := 2000
    summary := "s2".toList
    link := "https://example.com/2".toList
    imageUrl := "https://example.com/2.jpg".toList
    needsScraping := false
    language := Lang.en }

/-- Arbitrary always-parsing injected host Date parser used by witnesses. -/
def demoDateMs (s : Str) : Option Int := some (Int.ofNat s.length)

/-- Feed that fetched and parsed successfully but holds one item passing the
title/link/date guards whose publication date string is malformed. -/
def badDateFeed : ParsedFeed :=
  { feedTitle := "Bad Date Feed".toList
    feedUrl := "https://bad.example/feed".toList
    items := [{ title := "T".toList
                link := "https://bad.example/a".toList
                pubDate := "definitely not a date".toList
                guid := []
                description := []
                content := []
                mediaThumbnailUrl := none
                enclosureLink := none
                enclosureType := none
                thumbnail := none }]
    language := Lang.en }

/-- Host Date parser model that yields an Invalid Date on the malformed demo
date string and parses everything else. -/
def demoDateParseFail (s : Str) : Option Int :=
  if s = "definitely not a date".toList then none else some 0

def demoFeed1 : ParsedFeed :=
  { feedTitle := "Demo Feed".toList
    feedUrl := "https://example.com/feed".toList
    items := [buildItem false demoRssNode]
    language := Lang.en }

def demoFeed2 : ParsedFeed :=
  { feedTitle := "Other Feed".toList
    feedUrl := "https://other.example/feed".toList
    items := []
    language := Lang.de }

def demoFeed3 : ParsedFeed :=
  { feedTitle := "Third Feed".toList
    feedUrl := "https://third.example/feed".toList
    items := []
    language := Lang.en }

/-- Two of five feeds failed on every proxy, three succeeded. -/
def demoOutcomes : List (Option ParsedFeed) :=
  [some demoFeed1, none, some demoFeed2, none, some demoFeed3]

/-- Long plain text whose extracted text exceeds 150 characters. -/
def longDemoHtml : Str := (List.replicate 31 "word ".toList).flatten

/-! Shared verification lemmas. -/

/-- Push-style foldl loops (forEach with guard and push) compute a
filter-then-map. -/
theorem foldl_push_filter_map {α β : Type} (p : α → Bool) (f : α → β) (l : List α)
    (acc : List β) :
    l.foldl (fun acc n => if p n then acc ++ [f n] else acc) acc = acc ++ (l.filter p).map f := by
  induction l generalizing acc with
  | nil => simp
  | cons a l ih =>
    cases hp : p a <;> simp [List.foldl_cons, hp, ih, List.append_assoc]

/-! Claim theorems. -/

/-- C1 (counterexample): an img element with a src on a non-tracker domain and
no declared width or height attributes IS rejected by the dimension
criterion, and an item whose embedded HTML holds only such an image yields no
image candidate — contrary to the claim that undeclared dimensions are not
rejected and such an image is eligible for selection. -/
theorem C1_counterexample :
    imgAccepted { src := some "https://example.com/pic.jpg".toList, width := none,
                  height := none, dataSrc := none, dataLazySrc := none } = false ∧
    extractCandidate noDimImgItem = none := by
  constructor
  · decide
  · decide

/-- C1 (amended): in the embedded-HTML image scan, an img element whose width
or height attribute is not declared is rejected on the dimension criterion:
the missing attribute defaults to the string "0", parses to 0 which is at
most 1, and the scan filters the image out. -/
theorem C1_amended (img : ImgTag) (h : img.width = none ∨ img.height = none) :
    imgAccepted img = false := by
  have hz : jsLEOne (imgDim none) = true := by decide
  cases himg : img.src with
  | none => simp [imgAccepted, himg]
  | some s =>
    rcases h with h | h <;> simp [imgAccepted, himg, h, hz]

/-- C1 (witness): the amended theorem applied at the concrete image of the
counterexample. -/
theorem C1_witness :
    imgAccepted { src := some "https://example.com/pic.jpg".toList, width := none,
                  height := none, dataSrc := none, dataLazySrc := none } = false :=
  C1_amended _ (Or.inl rfl)

/-- C2 (counterexample): with the empty raw title, a gamestar.de feed URL
yields "Unknown Source", not "GameStar": the empty-title check precedes the
URL lookup. -/
theorem C2_counterexample :
    cleanSourceName [] "https://www.gamestar.de/rss/gamestar.rss".toList =
        "Unknown Source".toList ∧
    cleanSourceName [] "https://www.gamestar.de/rss/gamestar.rss".toList ≠
        "GameStar".toList := by
  constructor
  · decide
  · decide

/-- C2 (amended): cleanSourceName is deterministic; for every NON-empty raw
title and every feed URL containing "gamestar.de" but not containing
"play3.de" (the sole key preceding gamestar.de in the lookup table), it
returns exactly "GameStar"; the empty title short-circuits to
"Unknown Source" before the URL lookup. -/
theorem C2_amended :
    (∀ t₁ t₂ u₁ u₂ : Str, t₁ = t₂ → u₁ = u₂ →
      cleanSourceName t₁ u₁ = cleanSourceName t₂ u₂) ∧
    (∀ t u : Str, t ≠ [] → containsSub u "gamestar.de".toList = true →
      containsSub u "play3.de".toList = false →
      cleanSourceName t u = "GameStar".toList) ∧
    (∀ u : Str, cleanSourceName [] u = "Unknown Source".toList) := by
  refine ⟨fun t₁ t₂ u₁ u₂ ht hu => by rw [ht, hu], fun t u ht h1 h2 => ?_, fun u => rfl⟩
  have hte : t.isEmpty = false := by
    cases t with
    | nil => exact absurd rfl ht
    | cons a l => rfl
  have h1l : containsSub u ['g', 'a', 'm', 'e', 's', 't', 'a', 'r', '.', 'd', 'e'] = true := h1
  have h2l : containsSub u ['p', 'l', 'a', 'y', '3', '.', 'd', 'e'] = false := h2
  simp [cleanSourceName, hte, urlNameList, lookupUrlName, h1l, h2l]

/-- C2 (witness): the amended theorem applied at a concrete title and the
gamestar.de feed URL of the configuration. -/
theorem C2_witness :
    cleanSourceName "Anything".toList "https://www.gamestar.de/rss/gamestar.rss".toList =
      "GameStar".toList :=
  C2_amended.2.1 _ _ (by decide) (by decide) (by decide)

/-- C8: when no image candidate survives, the Image Resolver returns the
placeholder URL embedding the URL-encoded truncated source name, and the
needs-scraping flag is true exactly when the lowercased source name contains
one of the fixed scrape-required sources. -/
theorem C8_thm (item : Item) (sourceName : Str) (h : extractCandidate item = none) :
    extractInitialData item sourceName =
      (placeholderUrl sourceName,
        sourcesNeedingScraping.any (fun s => containsSub (toLowerL sourceName) s)) ∧
    ((extractInitialData item sourceName).2 = true ↔
      ∃ s ∈ sourcesNeedingScraping, containsSub (toLowerL sourceName) s = true) := by
  have h1 : extractInitialData item sourceName =
      (placeholderUrl sourceName,
        sourcesNeedingScraping.any (fun s => containsSub (toLowerL sourceName) s)) := by
    simp [extractInitialData, h]
  refine ⟨h1, ?_⟩
  rw [h1]
  simp [List.any_eq_true]

/-- C8 (witness): the theorem applied at the 1x1 tracking-pixel item of the
specification scenario, with a source on the scrape-required list. -/
theorem C8_witness :
    extractInitialData trackPixelItem "Play3".toList =
      (placeholderUrl "Play3".toList,
        sourcesNeedingScraping.any (fun s => containsSub (toLowerL "Play3".toList) s)) :=
  (C8_thm trackPixelItem "Play3".toList (by decide)).1

/-- C10: the scraper pass clears the needs-scraping flag of the processed
article regardless of the scrape outcome, keeps the previous image URL when
the scrape returned null and takes the scraped URL otherwise, leaves every
other field of that article unchanged, and leaves every article with a
different id untouched. -/
theorem C10_thm (scraped : Option Str) (tid : Str) (arts : List Article) :
    (scrapeUpdate scraped tid arts).length = arts.length ∧
    (∀ i : Nat, ∀ a : Article, arts[i]? = some a →
      (a.id ≠ tid → (scrapeUpdate scraped tid arts)[i]? = some a) ∧
      (a.id = tid → (scrapeUpdate scraped tid arts)[i]? =
        some { a with imageUrl := jsOrOpt scraped a.imageUrl, needsScraping := false })) ∧
    (∀ a : Article,
      ({ a with imageUrl := jsOrOpt scraped a.imageUrl, needsScraping := false } : Article).needsScraping = false ∧
      ({ a with imageUrl := jsOrOpt scraped a.imageUrl, needsScraping := false } : Article).id = a.id ∧
      ({ a with imageUrl := jsOrOpt scraped a.imageUrl, needsScraping := false } : Article).title = a.title ∧
      ({ a with imageUrl := jsOrOpt scraped a.imageUrl, needsScraping := false } : Article).source = a.source ∧
      ({ a with imageUrl := jsOrOpt scraped a.imageUrl, needsScraping := false } : Article).pubMs = a.pubMs ∧
      ({ a with imageUrl := jsOrOpt scraped a.imageUrl, needsScraping := false } : Article).summary = a.summary ∧
      ({ a with imageUrl := jsOrOpt scraped a.imageUrl, needsScraping := false } : Article).link = a.link ∧
      ({ a with imageUrl := jsOrOpt scraped a.imageUrl, needsScraping := false } : Article).language = a.language ∧
      (scraped = none →
        ({ a with imageUrl := jsOrOpt scraped a.imageUrl, needsScraping := false } : Article).imageUrl = a.imageUrl) ∧
      (∀ u : Str, scraped = some u → u ≠ [] →
        ({ a with imageUrl := jsOrOpt scraped a.imageUrl, needsScraping := false } : Article).imageUrl = u)) := by
  refine ⟨by simp [scrapeUpdate], fun i a ha => ⟨fun hne => ?_, fun heq => ?_⟩, fun a => ?_⟩
  · have hb : (a.id == tid) = false := beq_eq_false_iff_ne.mpr hne
    simp [scrapeUpdate, List.getElem?_map, ha, hb]
    exact fun hc => absurd hc hne
  · have hb : (a.id == tid) = true := beq_iff_eq.mpr heq
    simp [scrapeUpdate, List.getElem?_map, ha, hb]
    exact fun hc => absurd heq hc
  · refine ⟨rfl, rfl, rfl, rfl, rfl, rfl, rfl, rfl, fun hs => ?_, fun u hs hu => ?_⟩
    · subst hs; rfl
    · subst hs
      have : u.isEmpty = false := by
        cases u with
        | nil => exact absurd rfl hu
        | cons c l => rfl
      simp [jsOrOpt, this]

/-- C10 (witness): the theorem applied at a two-article list with a null
scrape result for the first article. -/
theorem C10_witness :
    (scrapeUpdate none demoArticle1.id [demoArticle1, demoArticle2])[1]? = some demoArticle2 ∧
    (scrapeUpdate none demoArticle1.id [demoArticle1, demoArticle2])[0]? =
      some { demoArticle1 with imageUrl := jsOrOpt none demoArticle1.imageUrl,
                               needsScraping := false } :=
  ⟨((C10_thm none demoArticle1.id [demoArticle1, demoArticle2]).2.1 1 demoArticle2
      (by decide)).1 (by decide),
   ((C10_thm none demoArticle1.id [demoArticle1, demoArticle2]).2.1 0 demoArticle1
      (by decide)).2 rfl⟩

/-- Spelled-out equivalence between `isEmpty = false` and list non-emptiness. -/
theorem isEmpty_false_iff (l : Str) : l.isEmpty = false ↔ l ≠ [] := by
  cases l <;> simp

/-- C3 (counterexample): an RSS item node with non-empty title and link, no
pubDate element, and an updated element IS included by the item loop — the
updated fallback applies to RSS as well as Atom, so the claim (date taken
from pubDate for RSS, items missing it skipped) fails on this input. -/
theorem C3_counterexample :
    rssUpdatedNode.pubDate = none ∧ (parseRssItems false [rssUpdatedNode]).length = 1 := by
  constructor
  · rfl
  · decide

/-- C3 (amended): the item loop includes an entry or item exactly when its
title, link and publication date are non-empty, where the date is `pubDate`
for RSS and `published` for Atom, in BOTH formats falling back to `updated`;
included items never carry empty defaults for the three fields. -/
theorem C3_amended (isAtom : Bool) (nodes : List XmlNode) :
    parseRssItems isAtom nodes = (nodes.filter (nodeValid isAtom)).map (buildItem isAtom) ∧
    (∀ it ∈ parseRssItems isAtom nodes, it.title ≠ [] ∧ it.link ≠ [] ∧ it.pubDate ≠ []) ∧
    (∀ n : XmlNode, nodeValid isAtom n = true ↔
      (queryText n.title ≠ [] ∧ strTruthy (nodeLink isAtom n) = true ∧
        jsOr (queryText (if isAtom then n.published else n.pubDate)) (queryText n.updated) ≠ [])) := by
  have hmain : parseRssItems isAtom nodes =
      (nodes.filter (nodeValid isAtom)).map (buildItem isAtom) := by
    have h := foldl_push_filter_map (nodeValid isAtom) (buildItem isAtom) nodes []
    simpa [parseRssItems] using h
  refine ⟨hmain, ?_, ?_⟩
  · intro it hit
    rw [hmain] at hit
    obtain ⟨n, hn, rfl⟩ := List.mem_map.mp hit
    have hv : nodeValid isAtom n = true := (List.mem_filter.mp hn).2
    unfold nodeValid at hv
    simp only [Bool.and_eq_true, Bool.not_eq_true'] at hv
    obtain ⟨⟨h1, h2⟩, h3⟩ := hv
    refine ⟨(isEmpty_false_iff _).mp h1, ?_, (isEmpty_false_iff _).mp h3⟩
    cases hnl : nodeLink isAtom n with
    | none => rw [hnl] at h2; exact absurd h2 (by simp [strTruthy])
    | some l =>
      rw [hnl] at h2
      have hl : l.isEmpty = false := by simpa [strTruthy] using h2
      simp [buildItem, hnl, (isEmpty_false_iff _).mp hl]
  · intro n
    unfold nodeValid nodePubDate
    simp [Bool.and_eq_true, Bool.not_eq_true', isEmpty_false_iff, and_assoc]

/-- C3 (witness): the amended theorem applied at a concrete well-formed RSS
node, showing its built item has the three non-empty fields. -/
theorem C3_witness :
    (buildItem false demoRssNode).title ≠ [] ∧ (buildItem false demoRssNode).link ≠ [] ∧
    (buildItem false demoRssNode).pubDate ≠ [] :=
  (C3_amended false [demoRssNode]).2.1 (buildItem false demoRssNode) (by decide)

/-- Specification of `lastIdxOf`: a returned index is in range and the
character there is the searched one. -/
theorem lastIdxOf_spec (l : Str) (c : Char) (i : Nat) (h : lastIdxOf l c = some i) :
    i < l.length ∧ l[i]? = some c := by
  induction l generalizing i with
  | nil => simp [lastIdxOf] at h
  | cons x t ih =>
    unfold lastIdxOf at h
    cases ht : lastIdxOf t c with
    | some j =>
      rw [ht] at h
      injection h with h
      subst h
      obtain ⟨hj, hget⟩ := ih j ht
      exact ⟨Nat.succ_lt_succ hj, by simpa using hget⟩
    | none =>
      rw [ht] at h
      by_cases hx : (x == c) = true
      · simp only [hx, if_true] at h
        injection h with h
        subst h
        exact ⟨Nat.succ_pos _, by simpa using (beq_iff_eq.mp hx)⟩
      · simp only [Bool.not_eq_true] at hx
        simp [hx] at h

/-- Element lookup commutes with `take` below the bound. -/
theorem getElem?_take_eq (l : Str) (n i : Nat) (h : i < n) : (l.take n)[i]? = l[i]? := by
  induction l generalizing n i with
  | nil => simp
  | cons x t ih =>
    cases n with
    | zero => exact absurd h (Nat.not_lt_zero i)
    | succ n =>
      cases i with
      | zero => simp
      | succ i => simpa using ih n i (Nat.lt_of_succ_lt_succ h)

/-- C4 (counterexample): the summarizer output can contain an angle bracket —
the entity in "a &lt; b" decodes to a literal less-than sign — refuting the
claim that the result never contains such characters. -/
theorem C4_counterexample :
    '<' ∈ stripHtmlAndTruncate "a &lt; b".toList 150 := by decide

/-- C4 (amended): summarize(html, 150) always returns at most 153 characters,
and when the extracted text exceeds 150 characters and a space occurs at a
positive index within the first 150 characters, the output is the text cut
at the last such space followed by the ellipsis — never mid-word with
respect to spaces; the output may, however, contain angle brackets coming
from decoded entities or literal text. -/
theorem C4_amended (html : Str) :
    (stripHtmlAndTruncate html 150).length ≤ 153 ∧
    (150 < (extractedText html).length →
      ∀ i : Nat, lastSpaceIdx ((extractedText html).take 150) = some i → 0 < i →
        stripHtmlAndTruncate html 150 = (extractedText html).take i ++ "...".toList ∧
        (extractedText html)[i]? = some ' ') := by
  by_cases hh : html.isEmpty = true
  · have hnil : html = [] := by cases html with
      | nil => rfl
      | cons c t => simp at hh
    subst hnil
    exact ⟨by simp [stripHtmlAndTruncate], fun hlen => absurd hlen (by decide)⟩
  · by_cases hdots : (extractedText html == "...".toList) = true
    · have hlen3 : (extractedText html).length = 3 := by rw [beq_iff_eq.mp hdots]; rfl
      refine ⟨?_, fun hlen => ?_⟩
      · unfold stripHtmlAndTruncate
        rw [if_neg hh, if_pos hdots]
        simp
      · rw [hlen3] at hlen
        exact absurd hlen (by omega)
    · have hdne : extractedText html ≠ ['.', '.', '.'] := fun hc => hdots (by rw [hc]; decide)
      by_cases hlen : 150 < (extractedText html).length
      · have hd : decide (150 < (extractedText html).length) = true := decide_eq_true hlen
        cases hsp : lastSpaceIdx ((extractedText html).take 150) with
        | none =>
          have heq : stripHtmlAndTruncate html 150 =
              (extractedText html).take 150 ++ "...".toList := by
            unfold stripHtmlAndTruncate
            rw [if_neg hh, if_neg hdots, if_pos hd, hsp]
          refine ⟨?_, fun hl i hi h0 => ?_⟩
          · rw [heq]
            have h1 : ((extractedText html).take 150).length ≤ 150 := by
              simp [List.length_take]
            simp only [List.length_append]
            have h2 : ("...".toList).length = 3 := rfl
            omega
          · exact absurd hi (by simp)
        | some j =>
          have hspec := lastIdxOf_spec _ _ _ hsp
          have hj150 : j < 150 := by
            have h1 := hspec.1
            simp [List.length_take] at h1
            omega
          by_cases hj : 0 < j
          · have heq : stripHtmlAndTruncate html 150 =
                (extractedText html).take j ++ "...".toList := by
              simp [stripHtmlAndTruncate, hh, hdne, hlen, hsp, hj, List.take_take,
                Nat.min_eq_left (Nat.le_of_lt hj150)]
            refine ⟨?_, fun hl i hi h0 => ?_⟩
            · rw [heq]
              have h1 : ((extractedText html).take j).length ≤ j := by
                simp [List.length_take]
              simp only [List.length_append]
              have h2 : ("...".toList).length = 3 := rfl
              omega
            · injection hi with hi
              subst hi
              refine ⟨heq, ?_⟩
              rw [← getElem?_take_eq (extractedText html) 150 j hj150]
              exact hspec.2
          · have hj0 : j = 0 := by omega
            subst hj0
            have heq : stripHtmlAndTruncate html 150 =
                (extractedText html).take 150 ++ "...".toList := by
              simp [stripHtmlAndTruncate, hh, hdne, hlen, hsp]
            refine ⟨?_, fun hl i hi h0 => ?_⟩
            · rw [heq]
              have h1 : ((extractedText html).take 150).length ≤ 150 := by
                simp [List.length_take]
              simp only [List.length_append]
              have h2 : ("...".toList).length = 3 := rfl
              omega
            · injection hi with hi
              subst hi
              exact absurd h0 (by omega)
      · have hd : decide (150 < (extractedText html).length) = false := by
          simp [hlen]
        refine ⟨?_, fun hl => absurd hl hlen⟩
        have heq : stripHtmlAndTruncate html 150 = extractedText html := by
          unfold stripHtmlAndTruncate
          rw [if_neg hh, if_neg hdots, if_neg (by simp [hd])]
        rw [heq]
        omega

set_option maxRecDepth 8192 in
/-- C4 (witness): the amended theorem applied at a 155-character plain text,
showing the cut at the last space within range. -/
theorem C4_witness :
    stripHtmlAndTruncate longDemoHtml 150 = (extractedText longDemoHtml).take 149 ++ "...".toList ∧
    (extractedText longDemoHtml)[149]? = some ' ' :=
  (C4_amended longDemoHtml).2 (by decide) 149 (by decide) (by decide)

/-- A failure count equal to the group size means every feed failed. -/
theorem filter_isNone_all {α : Type} (l : List (Option α)) :
    ((l.filter (fun o => o.isNone)).length = l.length) ↔ ∀ o ∈ l, o = none := by
  induction l with
  | nil => simp
  | cons o t ih =>
    cases o with
    | none => simp [ih]
    | some a =>
      have hle := List.length_filter_le (fun o : Option α => o.isNone) t
      constructor
      · intro h
        simp [List.filter_cons] at h
        omega
      · intro h
        exact absurd (h (some a) (by simp)) (by simp)

/-- All-none groups have no successful outcomes. -/
theorem filterMap_id_nil {α : Type} (l : List (Option α)) (h : ∀ o ∈ l, o = none) :
    l.filterMap id = [] := by
  induction l with
  | nil => rfl
  | cons o t ih =>
    have ho := h o (List.mem_cons_self o t)
    subst ho
    simpa using ih (fun o hot => h o (List.mem_cons_of_mem _ hot))

/-- The inner item loop never throws when every kept date parses. -/
theorem pushItems_isSome (dateMs : Str → Option Int) (src : Str) (lang : Lang)
    (items : List Item)
    (h : ∀ it ∈ items, itemValid it = true → (dateMs it.pubDate).isNone = false) :
    ∀ acc : List Article, (items.foldl (pushItem dateMs src lang) (some acc)).isSome = true := by
  induction items with
  | nil => intro acc; rfl
  | cons it t ih =>
    intro acc
    rw [List.foldl_cons]
    by_cases hv : itemValid it = true
    · have hd := h it (List.mem_cons_self it t) hv
      cases hb : buildArticle dateMs src lang it with
      | none =>
        exfalso
        unfold buildArticle at hb
        cases hdm : dateMs it.pubDate with
        | none => rw [hdm] at hd; simp at hd
        | some ms => rw [hdm] at hb; simp at hb
      | some a =>
        have hstep : pushItem dateMs src lang (some acc) it = some (acc ++ [a]) := by
          simp [pushItem, hv, hb]
        rw [hstep]
        exact ih (fun x hx hvx => h x (List.mem_cons_of_mem _ hx) hvx) (acc ++ [a])
    · have hstep : pushItem dateMs src lang (some acc) it = some acc := by
        simp [pushItem, hv]
      rw [hstep]
      exact ih (fun x hx hvx => h x (List.mem_cons_of_mem _ hx) hvx) acc

/-- A feed without a bad kept date builds its article list successfully. -/
theorem feedArticles_isSome (dateMs : Str → Option Int) (f : ParsedFeed)
    (h : f.items.any (fun it => itemValid it && (dateMs it.pubDate).isNone) = false) :
    (feedArticles dateMs f).isSome = true := by
  unfold feedArticles
  apply pushItems_isSome
  intro it hit hv
  cases hin : (dateMs it.pubDate).isNone with
  | false => rfl
  | true =>
    exfalso
    have hany : f.items.any (fun it => itemValid it && (dateMs it.pubDate).isNone) = true :=
      List.any_eq_true.mpr ⟨it, hit, by rw [hv, hin]; rfl⟩
    rw [h] at hany
    exact Bool.false_ne_true hany

/-- With no bad date anywhere, the outer loop collects exactly the union of
the successful feeds' article lists. -/
theorem pushFeeds_some (dateMs : Str → Option Int) (outcomes : List (Option ParsedFeed))
    (h : hasInvalidDate dateMs outcomes = false) :
    ∀ acc : List Article,
      outcomes.foldl (pushFeed dateMs) (some acc) =
        some (acc ++ ((outcomes.filterMap id).map
          (fun f => (feedArticles dateMs f).getD [])).flatten) := by
  induction outcomes with
  | nil => intro acc; simp
  | cons o t ih =>
    unfold hasInvalidDate at h
    rw [List.any_cons, Bool.or_eq_false_iff] at h
    obtain ⟨hhead, htail⟩ := h
    have htail' : hasInvalidDate dateMs t = false := htail
    intro acc
    rw [List.foldl_cons]
    cases o with
    | none =>
      have hstep : pushFeed dateMs (some acc) none = some acc := rfl
      rw [hstep, ih htail' acc]
      simp
    | some f =>
      have hsome : (feedArticles dateMs f).isSome = true := feedArticles_isSome dateMs f hhead
      cases hfa : feedArticles dateMs f with
      | none => rw [hfa] at hsome; simp at hsome
      | some l =>
        have hstep : pushFeed dateMs (some acc) (some f) = some (acc ++ l) := by
          simp [pushFeed, hfa]
        rw [hstep, ih htail' (acc ++ l)]
        simp [hfa, List.append_assoc]

/-- C7 (counterexample): a group whose single feed SUCCEEDED still raises —
the successful feed holds an item passing the title/link/date guards whose
publication date string does not parse, so the date conversion of the
article loop throws a RangeError that rejects the whole fetch, refuting both
directions of the claim (raise only if every feed failed; no raise on
partial success). -/
theorem C7_counterexample :
    (∃ o ∈ [some badDateFeed], o ≠ none) ∧
    fetchArticlesFromFeeds demoDateParseFail [some badDateFeed] =
      Except.error rangeErrorMsg := by
  constructor
  · exact ⟨some badDateFeed, List.mem_singleton.mpr rfl, by simp⟩
  · rfl

/-- C7 (amended): over a nonempty feed group in which every kept item of
every successful feed carries a parseable publication date, the aggregation
raises exactly when every feed failed (all proxies exhausted or parse
failure for each); with at least one success it returns the union of the
articles collected from the successful feeds without raising. When some
successful feed holds a kept item with an unparseable date, the date
conversion throws instead, as the counterexample shows. -/
theorem C7_amended (dateMs : Str → Option Int) (outcomes : List (Option ParsedFeed))
    (hne : outcomes ≠ []) (hdates : hasInvalidDate dateMs outcomes = false) :
    ((∃ e, fetchArticlesFromFeeds dateMs outcomes = Except.error e) ↔
      ∀ o ∈ outcomes, o = none) ∧
    ((∃ o ∈ outcomes, o ≠ none) →
      fetchArticlesFromFeeds dateMs outcomes =
        Except.ok (((outcomes.filterMap id).map
          (fun f => (feedArticles dateMs f).getD [])).flatten)) := by
  have hcollect := pushFeeds_some dateMs outcomes hdates []
  rw [List.nil_append] at hcollect
  have hloop : fetchArticlesFromFeeds dateMs outcomes =
      (if (((outcomes.filterMap id).map
          (fun f => (feedArticles dateMs f).getD [])).flatten).length = 0 ∧
          0 < outcomes.length then
        if (outcomes.filter (fun o => o.isNone)).length = outcomes.length then
          Except.error aggregationError
        else Except.ok (((outcomes.filterMap id).map
          (fun f => (feedArticles dateMs f).getD [])).flatten)
      else Except.ok (((outcomes.filterMap id).map
        (fun f => (feedArticles dateMs f).getD [])).flatten)) := by
    unfold fetchArticlesFromFeeds
    rw [hcollect]
  constructor
  · constructor
    · rintro ⟨e, he⟩
      rw [hloop] at he
      by_cases h1 : (((outcomes.filterMap id).map
          (fun f => (feedArticles dateMs f).getD [])).flatten).length = 0 ∧
          0 < outcomes.length
      · rw [if_pos h1] at he
        by_cases h2 : (outcomes.filter (fun o => o.isNone)).length = outcomes.length
        · exact (filter_isNone_all outcomes).mp h2
        · rw [if_neg h2] at he
          simp at he
      · rw [if_neg h1] at he
        simp at he
    · intro hall
      rw [hloop]
      have hfm : outcomes.filterMap id = [] := filterMap_id_nil outcomes hall
      rw [if_pos ⟨by rw [hfm]; rfl, List.length_pos.mpr hne⟩,
        if_pos ((filter_isNone_all outcomes).mpr hall)]
      exact ⟨aggregationError, rfl⟩
  · rintro ⟨o, ho, hno⟩
    rw [hloop]
    have h2 : ¬((outcomes.filter (fun o => o.isNone)).length = outcomes.length) := by
      intro h
      exact hno ((filter_isNone_all outcomes).mp h o ho)
    by_cases h1 : (((outcomes.filterMap id).map
        (fun f => (feedArticles dateMs f).getD [])).flatten).length = 0 ∧
        0 < outcomes.length
    · rw [if_pos h1, if_neg h2]
    · rw [if_neg h1]

/-- C7 (witness): the amended theorem applied at a five-feed group where two
feeds failed on all proxies, three succeeded and every date parses: the
union of the three successes is returned without raising. -/
theorem C7_witness :
    fetchArticlesFromFeeds demoDateMs demoOutcomes =
      Except.ok (((demoOutcomes.filterMap id).map
        (fun f => (feedArticles demoDateMs f).getD [])).flatten) :=
  (C7_amended demoDateMs demoOutcomes (by decide) (by decide)).2
    ⟨some demoFeed1, by decide, by decide⟩

/-- Every list starts itself followed by anything. -/
theorem isPref_self_append (l r : Str) : isPref l (l ++ r) = true := by
  induction l with
  | nil => rfl
  | cons a t ih => simp [isPref, ih]

/-- A run of satisfying characters followed by a failing one is exactly what
takeWhile keeps. -/
theorem takeWhile_block (p : Char → Bool) (seg : Str) (x : Char) (rest : Str)
    (hseg : ∀ c ∈ seg, p c = true) (hx : p x = false) :
    (seg ++ x :: rest).takeWhile p = seg := by
  induction seg with
  | nil => simp [List.takeWhile_cons, hx]
  | cons c t ih =>
    have hc : p c = true := hseg c (List.mem_cons_self c t)
    simp [List.takeWhile_cons, hc, ih (fun d hd => hseg d (List.mem_cons_of_mem _ hd))]

/-- The uploads-segment regex matches at the start of
`/uploads/<seg>/<suf>` with the expected length. -/
theorem uploadsMatchLen_at (seg suf : Str) (hseg : seg ≠ [])
    (hss : ∀ c ∈ seg, (c == '/') = false) :
    uploadsMatchLen ("/uploads/".toList ++ (seg ++ '/' :: suf)) = some (9 + seg.length + 1) := by
  have hdrop9 : ("/uploads/".toList ++ (seg ++ '/' :: suf)).drop 9 = seg ++ '/' :: suf :=
    List.drop_left' rfl
  have htw : (seg ++ '/' :: suf).takeWhile (fun c => !(c == '/')) = seg :=
    takeWhile_block _ seg '/' suf (fun c hc => by simp [hss c hc]) (by simp)
  have hie : seg.isEmpty = false := (isEmpty_false_iff seg).mpr hseg
  unfold uploadsMatchLen
  rw [if_pos (isPref_self_append _ _), hdrop9, htw]
  simp only [hie, Bool.false_eq_true, if_false]
  rw [List.drop_left]
  simp

/-- Unfolding step of the single replacement at a matching position. -/
theorem replaceUploads_match (s : Str) (n : Nat) (hs : s ≠ [])
    (h : uploadsMatchLen s = some n) :
    replaceUploadsOriginal s = "/uploads/original/".toList ++ s.drop n := by
  cases s with
  | nil => exact absurd rfl hs
  | cons c rest =>
    unfold replaceUploadsOriginal
    rw [h]

/-- Unfolding step of the single replacement at a non-matching position. -/
theorem replaceUploads_skip (c : Char) (rest : Str)
    (h : uploadsMatchLen (c :: rest) = none) :
    replaceUploadsOriginal (c :: rest) = c :: replaceUploadsOriginal rest := by
  conv_lhs => unfold replaceUploadsOriginal
  rw [h]

/-- The single uploads replacement acts exactly at the first matching
position: with no match inside the preceding characters, the first
`/uploads/<seg>/` block is rewritten to `/uploads/original/`. -/
theorem replaceUploads_first (pre seg suf : Str) (hseg : seg ≠ [])
    (hss : ∀ c ∈ seg, (c == '/') = false)
    (hfirst : ∀ i, i < pre.length →
      uploadsMatchLen ((pre ++ ("/uploads/".toList ++ (seg ++ '/' :: suf))).drop i) = none) :
    replaceUploadsOriginal (pre ++ ("/uploads/".toList ++ (seg ++ '/' :: suf))) =
      pre ++ ("/uploads/original/".toList ++ suf) := by
  induction pre with
  | nil =>
    simp only [List.nil_append]
    have hm : uploadsMatchLen ("/uploads/".toList ++ (seg ++ '/' :: suf)) =
        some (9 + seg.length + 1) := uploadsMatchLen_at seg suf hseg hss
    rw [replaceUploads_match _ _ (by simp) hm]
    have hdrop : ("/uploads/".toList ++ (seg ++ '/' :: suf)).drop (9 + seg.length + 1) = suf := by
      have hl9 : ("/uploads/".toList).length = 9 := rfl
      have h9 : (9 : Nat) + seg.length + 1 = ("/uploads/".toList).length + (seg.length + 1) := by
        rw [hl9]
        omega
      rw [h9, List.drop_append]
      have hassoc : seg ++ '/' :: suf = (seg ++ ['/']) ++ suf := by simp
      have hlen : seg.length + 1 = (seg ++ ['/']).length := by simp
      rw [hassoc, hlen, List.drop_left]
    rw [hdrop]
  | cons c pre' ih =>
    have h0 : uploadsMatchLen (c :: (pre' ++ ("/uploads/".toList ++ (seg ++ '/' :: suf)))) = none := by
      have h := hfirst 0 (by simp)
      simpa using h
    rw [List.cons_append, replaceUploads_skip c _ h0]
    rw [ih (fun i hi => by
      have h := hfirst (i + 1) (by simpa using hi)
      simpa using h)]
    rw [List.cons_append]

/-- C9: for a resolved image URL whose hostname contains gamespot.com (and a
source name outside the GamesWirtschaft suffix rule), the per-host rewrite
replaces the first path segment between `/uploads/` and the next slash with
`original`. -/
theorem C9_thm (url sourceName pre seg suf : Str)
    (hhost : containsSub (hostOf url) "gamespot.com".toList = true)
    (hnw : containsSub sourceName "GamesWirtschaft".toList = false)
    (hurl : url = pre ++ ("/uploads/".toList ++ (seg ++ '/' :: suf)))
    (hseg : seg ≠ []) (hss : ∀ c ∈ seg, (c == '/') = false)
    (hfirst : ∀ i, i < pre.length → uploadsMatchLen (url.drop i) = none) :
    applyHostRewrites url sourceName = pre ++ ("/uploads/original/".toList ++ suf) := by
  have hgs : applyHostRewrites url sourceName = replaceUploadsOriginal url := by
    unfold applyHostRewrites
    simp only [hhost, if_true, hnw, Bool.false_eq_true, if_false]
  rw [hgs, hurl]
  exact replaceUploads_first pre seg suf hseg hss (fun i hi => by
    have h := hfirst i hi
    rw [hurl] at h
    exact h)

/-- C9 (witness): the specification scenario — the GameSpot square_small URL
resolves to the original-resolution URL. -/
theorem C9_witness :
    applyHostRewrites "https://www.gamespot.com/a/uploads/square_small/123/image.jpg".toList
        "GameSpot".toList =
      "https://www.gamespot.com/a/uploads/original/123/image.jpg".toList := by
  have h := C9_thm "https://www.gamespot.com/a/uploads/square_small/123/image.jpg".toList
    "GameSpot".toList "https://www.gamespot.com/a".toList "square_small".toList
    "123/image.jpg".toList (by decide) (by decide) (by decide) (by decide) (by decide)
    (by decide)
  exact h.trans (by decide)

/-- Boolean equality on keys is symmetric. -/
theorem beqStr_comm (k₁ k₂ : Str) : (k₁ == k₂) = (k₂ == k₁) := by
  by_cases h : k₁ = k₂
  · subst h; rfl
  · rw [beq_eq_false_iff_ne.mpr h, beq_eq_false_iff_ne.mpr (Ne.symm h)]

/-- Key membership of the association list as an any-test over entries. -/
theorem contains_keysOf (m : List (Str × Article)) (k : Str) :
    (keysOf m).contains k = m.any (fun p => p.1 == k) := by
  induction m with
  | nil => rfl
  | cons p t ih =>
    simp only [keysOf, List.map_cons, List.contains_cons, List.any_cons]
    simp only [keysOf] at ih
    rw [beqStr_comm k p.1, ih]

/-- Key sequence after one dedup-map insertion. -/
theorem keysOf_dedupInsert (m : List (Str × Article)) (a : Article) :
    keysOf (dedupInsert m a) =
      if (keysOf m).contains a.id then keysOf m else keysOf m ++ [a.id] := by
  unfold dedupInsert
  rw [contains_keysOf]
  by_cases h : m.any (fun p => p.1 == a.id) = true
  · rw [if_pos h, if_pos h]
    unfold keysOf
    rw [List.map_map]
    apply List.map_congr_left
    intro p hp
    by_cases hk : p.1 = a.id <;> simp [hk]
  · rw [if_neg h, if_neg h]
    simp [keysOf]

/-- A successful any-test over keys is exactly a successful lookup. -/
theorem any_key_isSome (m : List (Str × Article)) (k : Str) :
    m.any (fun p => p.1 == k) = (lookupA m k).isSome := by
  induction m with
  | nil => rfl
  | cons p t ih =>
    by_cases h : (p.1 == k) = true
    · simp [lookupA, List.any_cons, List.find?_cons, h]
    · have h' : (p.1 == k) = false := by simpa using h
      simp only [lookupA, List.any_cons, List.find?_cons, h', Bool.false_or]
      simpa [lookupA] using ih

/-- Lookup through the in-place value update of the dedup-map insertion. -/
theorem lookupA_mapUpd (m : List (Str × Article)) (a : Article) (k : Str) :
    lookupA (m.map (fun p => if p.1 == a.id then (p.1, a) else p)) k =
      if k = a.id then (lookupA m a.id).map (fun _ => a) else lookupA m k := by
  induction m with
  | nil =>
    by_cases hk : k = a.id
    · rw [if_pos hk]; rfl
    · rw [if_neg hk]; rfl
  | cons p t ih =>
    by_cases hpa : (p.1 == a.id) = true
    · have hpa' : p.1 = a.id := beq_iff_eq.mp hpa
      by_cases hk : k = a.id
      · subst hk
        simp only [List.map_cons]
        rw [if_pos hpa]
        simp only [eq_self_iff_true, if_true]
        have hL : lookupA ((p.1, a) ::
            List.map (fun q => if q.1 == a.id then (q.1, a) else q) t) a.id = some a := by
          unfold lookupA
          rw [List.find?_cons]
          rw [show ((p.1, a).1 == a.id) = true from hpa]
          rfl
        have hR : lookupA (p :: t) a.id = some p.2 := by
          unfold lookupA
          rw [List.find?_cons, hpa]
          rfl
        rw [hL, hR]
        rfl
      · have hpk : (p.1 == k) = false :=
          beq_eq_false_iff_ne.mpr (by rw [hpa']; exact fun h => hk h.symm)
        simp only [List.map_cons, hpa, if_true]
        simp only [lookupA, List.find?_cons, hpa, hpk] at ih ⊢
        simpa [lookupA, hk] using ih
    · have hpa' : (p.1 == a.id) = false := by simpa using hpa
      by_cases hpk : (p.1 == k) = true
      · have hk : ¬k = a.id := by
          intro h
          rw [beq_iff_eq.mp hpk, h] at hpa'
          simp at hpa'
        simp only [List.map_cons, hpa', Bool.false_eq_true, if_false]
        simp [lookupA, List.find?_cons, hpk, hk]
      · have hpk' : (p.1 == k) = false := by simpa using hpk
        by_cases hk : k = a.id
        · subst hk
          simp only [List.map_cons, hpa', Bool.false_eq_true, if_false]
          simp only [lookupA, List.find?_cons, hpa'] at ih ⊢
          simpa [lookupA, hpk'] using ih
        · simp only [List.map_cons, hpa', Bool.false_eq_true, if_false]
          simp only [lookupA, List.find?_cons, hpk'] at ih ⊢
          simpa [lookupA, hk] using ih

/-- Lookup through the append of a fresh entry. -/
theorem lookupA_append_single (m : List (Str × Article)) (a : Article) (k : Str) :
    lookupA (m ++ [(a.id, a)]) k =
      match lookupA m k with
      | some v => some v
      | none => if k = a.id then some a else none := by
  induction m with
  | nil =>
    by_cases hk : k = a.id
    · subst hk
      simp [lookupA, List.find?_cons]
    · have hk' : (a.id == k) = false := beq_eq_false_iff_ne.mpr (Ne.symm hk)
      simp [lookupA, List.find?_cons, hk', hk]
  | cons p t ih =>
    by_cases hpk : (p.1 == k) = true
    · simp [lookupA, List.find?_cons, hpk]
    · have hpk' : (p.1 == k) = false := by simpa using hpk
      simp only [List.cons_append]
      simp only [lookupA, List.find?_cons, hpk'] at ih ⊢
      exact ih

/-- Lookup after one dedup-map insertion: the inserted id now maps to the new
article, every other key is untouched. -/
theorem lookupA_dedupInsert (m : List (Str × Article)) (a : Article) (k : Str) :
    lookupA (dedupInsert m a) k = if k = a.id then some a else lookupA m k := by
  unfold dedupInsert
  by_cases h : m.any (fun p => p.1 == a.id) = true
  · rw [if_pos h, lookupA_mapUpd]
    by_cases hk : k = a.id
    · subst hk
      have hs : (lookupA m a.id).isSome := by rw [← any_key_isSome]; exact h
      cases ho : lookupA m a.id with
      | none => rw [ho] at hs; simp at hs
      | some v => simp [ho]
    · simp [hk]
  · rw [if_neg h, lookupA_append_single]
    have hnone : lookupA m a.id = none := by
      cases ho : lookupA m a.id with
      | none => rfl
      | some v => exact absurd (by rw [any_key_isSome, ho]; rfl) h
    by_cases hk : k = a.id
    · subst hk
      rw [hnone]
    · cases ho : lookupA m k <;> simp [hk]

/-- Key sequence of the dedup fold. -/
theorem keysOf_fold (l : List Article) (m : List (Str × Article)) :
    keysOf (l.foldl dedupInsert m) = addIds (keysOf m) l := by
  induction l generalizing m with
  | nil => rfl
  | cons a t ih =>
    show keysOf (t.foldl dedupInsert (dedupInsert m a)) = addIds (keysOf m) (a :: t)
    rw [ih, keysOf_dedupInsert]
    rfl

/-- Lookup of the dedup fold: the last occurrence of the key in the folded
list wins, else the accumulated map answers. -/
theorem lookupA_fold (l : List Article) (m : List (Str × Article)) (k : Str) :
    lookupA (l.foldl dedupInsert m) k =
      match lastWith l k with
      | some b => some b
      | none => lookupA m k := by
  induction l generalizing m with
  | nil => rfl
  | cons a t ih =>
    show lookupA (t.foldl dedupInsert (dedupInsert m a)) k = _
    rw [ih, lookupA_dedupInsert]
    cases hl : lastWith t k with
    | some b => simp [lastWith, hl]
    | none =>
      by_cases hk : k = a.id
      · subst hk
        simp [lastWith, hl, beq_self_eq_true]
      · have hb : (a.id == k) = false := beq_eq_false_iff_ne.mpr (fun h => hk h.symm)
        simp [lastWith, hl, hk, hb]

/-- Last-occurrence search distributes over append, the second list first. -/
theorem lastWith_append (l₁ l₂ : List Article) (k : Str) :
    lastWith (l₁ ++ l₂) k =
      match lastWith l₂ k with
      | some b => some b
      | none => lastWith l₁ k := by
  induction l₁ with
  | nil =>
    simp only [List.nil_append]
    cases hl : lastWith l₂ k <;> rfl
  | cons a t ih =>
    have hstep : lastWith (a :: (t ++ l₂)) k =
        match lastWith (t ++ l₂) k with
        | some b => some b
        | none => if a.id == k then some a else none := rfl
    rw [List.cons_append, hstep, ih]
    cases hl : lastWith l₂ k
    · rfl
    · rfl

/-- Folding a list onto itself keeps the same last-occurrence answers. -/
theorem lastWith_self_append (l : List Article) (k : Str) :
    lastWith (l ++ l) k = lastWith l k := by
  rw [lastWith_append]
  cases hl : lastWith l k <;> rfl

/-- One step of the first-occurrence id accumulation. -/
theorem addIds_cons (ks : List Str) (a : Article) (l : List Article) :
    addIds ks (a :: l) = addIds (if ks.contains a.id then ks else ks ++ [a.id]) l := rfl

/-- Decidable key equality agrees with its boolean form. -/
theorem decide_eq_beq (k x : Str) : decide (k = x) = (k == x) := by
  by_cases h : k = x <;> simp [h]

/-- Key membership in an accumulator extended by one element. -/
theorem contains_append_single (ks : List Str) (x k : Str) :
    (ks ++ [x]).contains k = (ks.contains k || (k == x)) := by
  induction ks with
  | nil => simp [List.contains_cons, decide_eq_beq]
  | cons a t ih => simp [List.contains_cons, ih, Bool.or_assoc, decide_eq_beq]

/-- A passing containment test means membership. -/
theorem mem_of_contains_true (ks : List Str) (x : Str) (h : ks.contains x = true) :
    x ∈ ks := by
  induction ks with
  | nil => simp at h
  | cons a t ih =>
    rw [List.contains_cons] at h
    rcases Bool.or_eq_true_iff.mp h with h1 | h2
    · exact List.mem_cons.mpr (Or.inl (beq_iff_eq.mp h1))
    · exact List.mem_cons.mpr (Or.inr (ih h2))

/-- Membership in the id accumulation. -/
theorem addIds_contains (l : List Article) (ks : List Str) (k : Str) :
    (addIds ks l).contains k = (ks.contains k || l.any (fun a => a.id == k)) := by
  induction l generalizing ks with
  | nil => simp [addIds]
  | cons a t ih =>
    rw [addIds_cons, ih]
    by_cases hc : ks.contains a.id = true
    · rw [if_pos hc]
      by_cases hk : k = a.id
      · subst hk
        have hm : a.id ∈ ks := mem_of_contains_true ks a.id hc
        simp [hc, hm]
      · have hb : (a.id == k) = false := beq_eq_false_iff_ne.mpr (fun h => hk h.symm)
        simp [List.any_cons, hb]
    · rw [if_neg hc, contains_append_single, beqStr_comm k a.id, Bool.or_assoc]
      rfl

/-- The id accumulation adds nothing over already-present ids. -/
theorem addIds_fixed (l : List Article) (ks : List Str)
    (h : ∀ a ∈ l, ks.contains a.id = true) : addIds ks l = ks := by
  induction l with
  | nil => rfl
  | cons a t ih =>
    rw [addIds_cons, if_pos (h a (List.mem_cons_self a t))]
    exact ih (fun a ha => h a (List.mem_cons_of_mem _ ha))

/-- A failing containment test means non-membership. -/
theorem not_mem_of_contains_false (ks : List Str) (x : Str)
    (h : ks.contains x = false) : x ∉ ks := by
  induction ks with
  | nil => simp
  | cons a t ih =>
    rw [List.contains_cons] at h
    simp only [Bool.or_eq_false_iff] at h
    intro hm
    rcases List.mem_cons.mp hm with heq | hm2
    · rw [heq] at h
      rw [beq_self_eq_true] at h
      exact absurd h.1 (by simp)
    · exact ih h.2 hm2

/-- The id accumulation preserves key distinctness. -/
theorem addIds_nodup (l : List Article) (ks : List Str) (h : ks.Nodup) :
    (addIds ks l).Nodup := by
  induction l generalizing ks with
  | nil => exact h
  | cons a t ih =>
    rw [addIds_cons]
    by_cases hc : ks.contains a.id = true
    · rw [if_pos hc]
      exact ih ks h
    · rw [if_neg hc]
      apply ih
      rw [List.nodup_append]
      refine ⟨h, List.nodup_singleton _, ?_⟩
      intro x hx hx1
      rw [List.mem_singleton.mp hx1] at hx
      exact not_mem_of_contains_false ks a.id (by simpa using hc) hx

/-- Looking up an absent key fails. -/
theorem lookupA_none_of_not_mem (m : List (Str × Article)) (k : Str)
    (h : k ∉ keysOf m) : lookupA m k = none := by
  induction m with
  | nil => rfl
  | cons p t ih =>
    simp only [keysOf, List.map_cons, List.mem_cons, not_or] at h
    obtain ⟨h1, h2⟩ := h
    have hpk : (p.1 == k) = false := beq_eq_false_iff_ne.mpr (fun he => h1 he.symm)
    unfold lookupA
    rw [List.find?_cons, hpk]
    simpa [lookupA] using ih (by simpa [keysOf] using h2)

/-- Association lists with the same distinct key sequence and the same lookup
answers are equal. -/
theorem assoc_ext (m₁ m₂ : List (Str × Article)) (hk : keysOf m₁ = keysOf m₂)
    (hnd : (keysOf m₁).Nodup) (hl : ∀ k, lookupA m₁ k = lookupA m₂ k) : m₁ = m₂ := by
  induction m₁ generalizing m₂ with
  | nil =>
    cases m₂ with
    | nil => rfl
    | cons q t₂ => simp [keysOf] at hk
  | cons p t ih =>
    cases m₂ with
    | nil => simp [keysOf] at hk
    | cons q t₂ =>
      simp only [keysOf, List.map_cons, List.cons.injEq] at hk
      obtain ⟨hpq, hkt⟩ := hk
      have hv := hl p.1
      have hbp : (p.1 == p.1) = true := beq_self_eq_true _
      have hbq : (q.1 == p.1) = true := beq_iff_eq.mpr hpq.symm
      unfold lookupA at hv
      rw [List.find?_cons, hbp, List.find?_cons, hbq] at hv
      simp only [Option.map_some'] at hv
      have hnd' := hnd
      simp only [keysOf, List.map_cons, List.nodup_cons] at hnd'
      obtain ⟨hp1, hndt⟩ := hnd'
      have htails : t = t₂ := by
        apply ih
        · exact hkt
        · simpa [keysOf] using hndt
        · intro k
          by_cases hkp : k = p.1
          · subst hkp
            have hp1' : p.1 ∉ keysOf t := hp1
            have hp2' : p.1 ∉ keysOf t₂ := by
              have hk2 : keysOf t₂ = keysOf t := hkt.symm
              rw [hk2]
              exact hp1'
            rw [lookupA_none_of_not_mem t _ hp1', lookupA_none_of_not_mem t₂ _ hp2']
          · have hpk : (p.1 == k) = false := beq_eq_false_iff_ne.mpr (fun h => hkp h.symm)
            have hqk : (q.1 == k) = false := by rw [← hpq]; exact hpk
            have h2 := hl k
            unfold lookupA at h2
            rw [List.find?_cons, hpk, List.find?_cons, hqk] at h2
            exact h2
      injection hv with hv2
      rw [Prod.ext hpq hv2, htails]

/-- The dedup map always has distinct keys. -/
theorem keysOf_dedupMapOf_nodup (l : List Article) : (keysOf (dedupMapOf l)).Nodup := by
  unfold dedupMapOf
  rw [keysOf_fold]
  exact addIds_nodup l _ List.nodup_nil

/-- Deduplicating a list concatenated with itself builds the same map as
deduplicating the list alone. -/
theorem dedupMapOf_self_append (A : List Article) : dedupMapOf (A ++ A) = dedupMapOf A := by
  apply assoc_ext
  · unfold dedupMapOf
    rw [keysOf_fold, keysOf_fold]
    have happ : addIds (keysOf ([] : List (Str × Article))) (A ++ A) =
        addIds (addIds (keysOf ([] : List (Str × Article))) A) A := by
      unfold addIds
      rw [List.foldl_append]
    rw [happ]
    apply addIds_fixed
    intro a ha
    rw [addIds_contains]
    apply Bool.or_eq_true_iff.mpr
    exact Or.inr (List.any_eq_true.mpr ⟨a, ha, beq_self_eq_true a.id⟩)
  · exact keysOf_dedupMapOf_nodup (A ++ A)
  · intro k
    unfold dedupMapOf
    rw [lookupA_fold, lookupA_fold, lastWith_self_append]

/-- C5: the merge step is idempotent — merging a list with itself commits
exactly the same set (same list, same size, same membership) as merging the
list alone. -/
theorem C5_thm (now : Int) (A : List Article) :
    updateArticles now (A ++ A) = updateArticles now A ∧
    (updateArticles now (A ++ A)).length = (updateArticles now A).length ∧
    (∀ x : Article, x ∈ updateArticles now (A ++ A) ↔ x ∈ updateArticles now A) := by
  have h : updateArticles now (A ++ A) = updateArticles now A := by
    unfold updateArticles deduplicated
    rw [dedupMapOf_self_append]
  exact ⟨h, by rw [h], fun x => by rw [h]⟩

/-- Stable descending insertion permutes the inserted element in. -/
theorem insDesc_perm (a : Article) (l : List Article) : (insDesc a l).Perm (a :: l) := by
  induction l with
  | nil => exact List.Perm.refl _
  | cons b t ih =>
    unfold insDesc
    by_cases h : a.pubMs < b.pubMs
    · rw [if_pos (decide_eq_true h)]
      exact (ih.cons b).trans (List.Perm.swap a b t)
    · rw [if_neg (by simp [h])]

/-- The descending sort is a permutation of its input. -/
theorem sortByDateDesc_perm (l : List Article) : (sortByDateDesc l).Perm l := by
  induction l with
  | nil => exact List.Perm.refl _
  | cons a t ih => exact (insDesc_perm a (sortByDateDesc t)).trans (ih.cons a)

/-- Descending insertion preserves descending order. -/
theorem insDesc_pairwise (a : Article) (l : List Article)
    (h : l.Pairwise (fun x y => y.pubMs ≤ x.pubMs)) :
    (insDesc a l).Pairwise (fun x y => y.pubMs ≤ x.pubMs) := by
  induction l with
  | nil => simp [insDesc]
  | cons b t ih =>
    rw [List.pairwise_cons] at h
    obtain ⟨hb, ht⟩ := h
    unfold insDesc
    by_cases hab : a.pubMs < b.pubMs
    · rw [if_pos (decide_eq_true hab)]
      rw [List.pairwise_cons]
      refine ⟨?_, ih ht⟩
      intro y hy
      have hy' := (insDesc_perm a t).mem_iff.mp hy
      rcases List.mem_cons.mp hy' with heq | hyt
      · rw [heq]
        exact Int.le_of_lt hab
      · exact hb y hyt
    · rw [if_neg (by simp [hab])]
      rw [List.pairwise_cons]
      refine ⟨?_, List.pairwise_cons.mpr ⟨hb, ht⟩⟩
      intro y hy
      rcases List.mem_cons.mp hy with heq | hyt
      · rw [heq]
        exact Int.not_lt.mp hab
      · exact le_trans (hb y hyt) (Int.not_lt.mp hab)

/-- The committed sort is descending by publication date. -/
theorem sortByDateDesc_pairwise (l : List Article) :
    (sortByDateDesc l).Pairwise (fun x y => y.pubMs ≤ x.pubMs) := by
  induction l with
  | nil => simp [sortByDateDesc]
  | cons a t ih => exact insDesc_pairwise a _ ih

/-- Each dedup-map entry stores an article carrying its own key. -/
theorem dedupInsert_wf (m : List (Str × Article)) (a : Article)
    (h : ∀ p ∈ m, p.2.id = p.1) : ∀ p ∈ dedupInsert m a, p.2.id = p.1 := by
  unfold dedupInsert
  by_cases hc : m.any (fun p => p.1 == a.id) = true
  · rw [if_pos hc]
    intro p hp
    obtain ⟨q, hq, hfq⟩ := List.mem_map.mp hp
    by_cases hq1 : (q.1 == a.id) = true
    · rw [← hfq]
      simp only [hq1, if_true]
      exact (beq_iff_eq.mp hq1).symm
    · rw [← hfq]
      have hq1' : (q.1 == a.id) = false := by simpa using hq1
      simp only [hq1', Bool.false_eq_true, if_false]
      exact h q hq
  · rw [if_neg hc]
    intro p hp
    rcases List.mem_append.mp hp with hm | hs
    · exact h p hm
    · rw [List.mem_singleton.mp hs]

/-- Every entry of the dedup map stores an article carrying its own key. -/
theorem dedupMapOf_wf (l : List Article) : ∀ p ∈ dedupMapOf l, p.2.id = p.1 := by
  suffices haux : ∀ m, (∀ p ∈ m, p.2.id = p.1) → ∀ p ∈ l.foldl dedupInsert m, p.2.id = p.1 by
    exact haux [] (by simp)
  induction l with
  | nil =>
    intro m hm
    simpa using hm
  | cons a t ih =>
    intro m hm
    exact ih (dedupInsert m a) (dedupInsert_wf m a hm)

/-- With distinct keys, every stored entry is found by lookup. -/
theorem lookupA_of_mem (m : List (Str × Article)) (k : Str) (v : Article)
    (hnd : (keysOf m).Nodup) (hm : (k, v) ∈ m) : lookupA m k = some v := by
  induction m with
  | nil => simp at hm
  | cons p t ih =>
    simp only [keysOf, List.map_cons, List.nodup_cons] at hnd
    obtain ⟨hp1, hndt⟩ := hnd
    rcases List.mem_cons.mp hm with heq | hmt
    · rw [← heq]
      unfold lookupA
      rw [List.find?_cons]
      rw [show (((k, v)).1 == k) = true from beq_self_eq_true k]
      rfl
    · have hkmem : k ∈ keysOf t := List.mem_map.mpr ⟨(k, v), hmt, rfl⟩
      have hpk : (p.1 == k) = false := beq_eq_false_iff_ne.mpr (fun he => hp1 (he ▸ hkmem))
      unfold lookupA
      rw [List.find?_cons, hpk]
      simpa [lookupA] using ih (by simpa [keysOf] using hndt) hmt

/-- Every article surviving deduplication is the last occurrence of its id in
the input. -/
theorem mem_deduplicated_lastWith (l : List Article) (a : Article)
    (h : a ∈ deduplicated l) : lastWith l a.id = some a := by
  unfold deduplicated at h
  obtain ⟨p, hp, hsnd⟩ := List.mem_map.mp h
  have hid : p.2.id = p.1 := dedupMapOf_wf l p hp
  have hpair : (a.id, a) = p := by
    apply Prod.ext
    · rw [← hsnd]
      exact hid
    · exact hsnd.symm
  have hk : (a.id, a) ∈ dedupMapOf l := by
    rw [hpair]
    exact hp
  have hl := lookupA_of_mem (dedupMapOf l) a.id a (keysOf_dedupMapOf_nodup l) hk
  have hf := lookupA_fold l [] a.id
  rw [show dedupMapOf l = l.foldl dedupInsert [] from rfl, hf] at hl
  cases hlw : lastWith l a.id with
  | none =>
    rw [hlw] at hl
    exact absurd hl (by simp [lookupA])
  | some b =>
    rw [hlw] at hl
    simpa using hl

/-- The deduplicated articles have pairwise distinct ids. -/
theorem deduplicated_ids_nodup (l : List Article) :
    ((deduplicated l).map Article.id).Nodup := by
  have hids : (deduplicated l).map Article.id = keysOf (dedupMapOf l) := by
    unfold deduplicated keysOf
    rw [List.map_map]
    exact List.map_congr_left (fun p hp => dedupMapOf_wf l p hp)
  rw [hids]
  exact keysOf_dedupMapOf_nodup l

/-- C6: the committed set keeps only articles within the 7-day retention
window, has pairwise distinct ids with the last occurrence of a duplicated id
winning, and is sorted in descending publication-date order. -/
theorem C6_thm (now : Int) (l : List Article) :
    (∀ a ∈ updateArticles now l, now - retentionMs ≤ a.pubMs) ∧
    ((updateArticles now l).map Article.id).Nodup ∧
    (updateArticles now l).Pairwise (fun x y => y.pubMs ≤ x.pubMs) ∧
    (∀ a ∈ updateArticles now l, lastWith l a.id = some a) := by
  have hperm : (updateArticles now l).Perm
      ((deduplicated l).filter (fun a => decide (now - retentionMs ≤ a.pubMs))) := by
    unfold updateArticles
    exact sortByDateDesc_perm _
  refine ⟨?_, ?_, ?_, ?_⟩
  · intro a ha
    have hmem := hperm.mem_iff.mp ha
    exact of_decide_eq_true (List.mem_filter.mp hmem).2
  · have h1 := deduplicated_ids_nodup l
    have hsub : (((deduplicated l).filter
        (fun a => decide (now - retentionMs ≤ a.pubMs))).map Article.id).Sublist
        ((deduplicated l).map Article.id) :=
      List.Sublist.map Article.id (List.filter_sublist _)
    have h2 := List.Nodup.sublist hsub h1
    exact (hperm.symm.map Article.id).nodup h2
  · unfold updateArticles
    exact sortByDateDesc_pairwise _
  · intro a ha
    have hmem := hperm.mem_iff.mp ha
    exact mem_deduplicated_lastWith l a (List.mem_filter.mp hmem).1

/-- C6 (witness): the theorem applied at a concrete two-article list at a
fixed current time. -/
theorem C6_witness :
    ((0 : Int) - retentionMs ≤ demoArticle2.pubMs) ∧
    lastWith [demoArticle1, demoArticle2] demoArticle2.id = some demoArticle2 :=
  ⟨(C6_thm 0 [demoArticle1, demoArticle2]).1 demoArticle2 (by decide),
   (C6_thm 0 [demoArticle1, demoArticle2]).2.2.2 demoArticle2 (by decide)⟩

end GamerFeed
